import Mathlib

/-!
Verification of the vault persistence and path-safety layer of a
file-based note-taking backend.  The Python source (backend/core.py and
backend/routers/{pages,categories}.py) is shallowly embedded: strings are
`String`/`List Char`, JSON dictionaries are association lists, raised
`HTTPException`s are `Except.error`, and filesystem facts that the code
consults are passed in as explicit boolean parameters.
-/

/-- HTTP-level error raised by the backend (`HTTPException(status_code, detail)`). -/
structure HError where
  status : Nat
  detail : String
deriving DecidableEq

example : (⟨400, "x"⟩ : HError) = ⟨400, "x"⟩ := by decide

/-! ## UUID validation (backend/core.py `_UUID_RE`, `validate_uuid`) -/

/-- Characters matched by the regex class `[0-9a-f]` under `re.IGNORECASE`:
ASCII hex digits of either case. -/
def isHexDigit (c : Char) : Bool :=
  ('0' ≤ c && c ≤ '9') || ('a' ≤ c && c ≤ 'f') || ('A' ≤ c && c ≤ 'F')

/-- Consume exactly `n` hex digits from the front of `s` (the regex piece
`[0-9a-f]{n}`), returning the remaining characters. -/
def hexTake : Nat → List Char → Option (List Char)
  | 0, s => some s
  | _ + 1, [] => none
  | n + 1, c :: s => if isHexDigit c then hexTake n s else none

/-- Consume one literal dash (the regex piece `-`). -/
def dashTake : List Char → Option (List Char)
  | [] => none
  | c :: s => if c = '-' then some s else none

/-- Remainder after matching the body of `_UUID_RE`
(`[0-9a-f]{8}-[0-9a-f]{4}-[0-9a-f]{4}-[0-9a-f]{4}-[0-9a-f]{12}`) at the start
of `s`; `some []` means the groups consumed all of `s`. -/
def uuidMatchRest (s : List Char) : Option (List Char) :=
  (hexTake 8 s).bind fun s1 => (dashTake s1).bind fun s2 =>
  (hexTake 4 s2).bind fun s3 => (dashTake s3).bind fun s4 =>
  (hexTake 4 s4).bind fun s5 => (dashTake s5).bind fun s6 =>
  (hexTake 4 s6).bind fun s7 => (dashTake s7).bind fun s8 =>
  hexTake 12 s8

/-- Full anchored match of the UUID pattern body against the whole of `s`. -/
def uuidCore (s : List Char) : Bool :=
  decide (uuidMatchRest s = some [])

/-- Boolean value of `_UUID_RE.match(value)`.  Python's `$` anchor (without
`re.MULTILINE`) matches at the very end of the string and also just before a
newline that ends the string, so the regex accepts both the bare
36-character pattern and the pattern followed by a single trailing `'\n'`. -/
def pyUUIDMatch (s : List Char) : Bool :=
  uuidCore s || (decide (s.getLast? = some '\n') && uuidCore s.dropLast)

/-- `validate_uuid(value, label)` from backend/core.py: raises
`HTTPException(400, ...)` unless `_UUID_RE.match(value)` succeeds.  The check is
a pure string test and performs no filesystem access. -/
def validate_uuid (value : String) (label : String) : Except HError Unit :=
  if pyUUIDMatch value.data then Except.ok ()
  else Except.error ⟨400, "잘못된 " ++ label ++ " 형식입니다"⟩

/-- A list of exactly `n` hex digits. -/
def HexGroup (l : List Char) (n : Nat) : Prop :=
  l.length = n ∧ ∀ c ∈ l, isHexDigit c = true

/-- Declarative reading of the spec's UUID pattern: five case-insensitive hex
groups of sizes 8-4-4-4-12 joined by dashes, covering the whole string. -/
def UUIDShape (s : List Char) : Prop :=
  ∃ a b c d e, HexGroup a 8 ∧ HexGroup b 4 ∧ HexGroup c 4 ∧ HexGroup d 4 ∧
    HexGroup e 12 ∧ s = a ++ '-' :: (b ++ '-' :: (c ++ '-' :: (d ++ '-' :: e)))

lemma hexTake_eq_some {n : Nat} {s r : List Char} :
    hexTake n s = some r ↔ ∃ pre, HexGroup pre n ∧ s = pre ++ r := by
  induction n generalizing s with
  | zero =>
    simp only [hexTake, Option.some.injEq]
    constructor
    · rintro rfl
      exact ⟨[], ⟨rfl, by simp⟩, by simp⟩
    · rintro ⟨pre, ⟨hlen, _⟩, rfl⟩
      have : pre = [] := List.length_eq_zero.mp hlen
      simp [this]
  | succ n ih =>
    cases s with
    | nil =>
      simp only [hexTake]
      constructor
      · intro h; cases h
      · rintro ⟨pre, ⟨hlen, _⟩, h⟩
        cases pre with
        | nil => cases hlen
        | cons c t => cases h
    | cons c s' =>
      simp only [hexTake]
      by_cases hc : isHexDigit c
      · simp only [hc, if_true, ih]
        constructor
        · rintro ⟨pre, hpre, rfl⟩
          exact ⟨c :: pre, ⟨by simp [hpre.1], by
            intro x hx
            rcases List.mem_cons.mp hx with rfl | hx
            · exact hc
            · exact hpre.2 x hx⟩, rfl⟩
        · rintro ⟨pre, ⟨hlen, hhex⟩, h⟩
          cases pre with
          | nil => cases hlen
          | cons c0 pre' =>
            obtain ⟨rfl, h2⟩ : c0 = c ∧ s' = pre' ++ r := by
              constructor
              · exact (List.cons.injEq .. ▸ h).1.symm
              · exact (List.cons.injEq .. ▸ h).2
            exact ⟨pre', ⟨by simpa using hlen, fun x hx => hhex x (List.mem_cons_of_mem _ hx)⟩, h2⟩
      · simp only [hc, if_false]
        constructor
        · intro h; cases h
        · rintro ⟨pre, ⟨hlen, hhex⟩, h⟩
          cases pre with
          | nil => cases hlen
          | cons c0 pre' =>
            have : c0 = c := (List.cons.injEq .. ▸ h).1.symm
            exact absurd (this ▸ hhex c0 (List.mem_cons_self ..)) (by simpa using hc)

lemma dashTake_eq_some {s r : List Char} :
    dashTake s = some r ↔ s = '-' :: r := by
  cases s with
  | nil => simp [dashTake]
  | cons c s' =>
    simp only [dashTake]
    by_cases hc : c = '-'
    · subst hc; simp
    · simp [hc]

lemma uuidCore_iff_shape {s : List Char} : uuidCore s = true ↔ UUIDShape s := by
  rw [uuidCore, decide_eq_true_iff]
  constructor
  · intro h
    simp only [uuidMatchRest, Option.bind_eq_some] at h
    obtain ⟨s1, h1, s2, h2, s3, h3, s4, h4, s5, h5, s6, h6, s7, h7, s8, h8, h9⟩ := h
    obtain ⟨a, ha, rfl⟩ := hexTake_eq_some.mp h1
    obtain ⟨b, hb, rfl⟩ := hexTake_eq_some.mp h3
    obtain ⟨c, hc, rfl⟩ := hexTake_eq_some.mp h5
    obtain ⟨d, hd, rfl⟩ := hexTake_eq_some.mp h7
    obtain ⟨e, he, he0⟩ := hexTake_eq_some.mp h9
    rw [dashTake_eq_some] at h2 h4 h6 h8
    subst h2 h4 h6 h8
    refine ⟨a, b, c, d, e, ha, hb, hc, hd, he, ?_⟩
    simp [he0]
  · rintro ⟨a, b, c, d, e, ha, hb, hc, hd, he, rfl⟩
    simp only [uuidMatchRest, Option.bind_eq_some]
    refine ⟨'-' :: (b ++ '-' :: (c ++ '-' :: (d ++ '-' :: e))),
      hexTake_eq_some.mpr ⟨a, ha, by simp⟩, _, dashTake_eq_some.mpr rfl, ?_⟩
    refine ⟨'-' :: (c ++ '-' :: (d ++ '-' :: e)),
      hexTake_eq_some.mpr ⟨b, hb, by simp⟩, _, dashTake_eq_some.mpr rfl, ?_⟩
    refine ⟨'-' :: (d ++ '-' :: e),
      hexTake_eq_some.mpr ⟨c, hc, by simp⟩, _, dashTake_eq_some.mpr rfl, ?_⟩
    refine ⟨'-' :: e, hexTake_eq_some.mpr ⟨d, hd, by simp⟩, _, dashTake_eq_some.mpr rfl, ?_⟩
    exact hexTake_eq_some.mpr ⟨e, he, by simp⟩

lemma uuidShape_length {s : List Char} (h : UUIDShape s) : s.length = 36 := by
  obtain ⟨a, b, c, d, e, ha, hb, hc, hd, he, rfl⟩ := h
  simp [List.length_append, ha.1, hb.1, hc.1, hd.1, he.1]

lemma pyUUIDMatch_iff {s : List Char} :
    pyUUIDMatch s = true ↔ (UUIDShape s ∨ ∃ t, s = t ++ ['\n'] ∧ UUIDShape t) := by
  rw [pyUUIDMatch, Bool.or_eq_true, Bool.and_eq_true, decide_eq_true_iff,
    uuidCore_iff_shape, uuidCore_iff_shape]
  constructor
  · rintro (h | ⟨hlast, hshape⟩)
    · exact Or.inl h
    · refine Or.inr ⟨s.dropLast, ?_, hshape⟩
      have hne : s ≠ [] := by rintro rfl; cases hlast
      conv_lhs => rw [← List.dropLast_append_getLast hne]
      rw [List.getLast?_eq_getLast s hne, Option.some.injEq] at hlast
      rw [hlast]
  · rintro (h | ⟨t, rfl, hshape⟩)
    · exact Or.inl h
    · exact Or.inr ⟨by simp, by simpa using hshape⟩

/-- C1 counterexample: `validate_uuid` accepts a 37-character value, a
well-formed UUID followed by a newline, because Python's `$` also matches just
before a trailing newline.  The claim says only 36-character exact matches are
accepted. -/
theorem validate_uuid_accepts_trailing_newline :
    validate_uuid "00000000-0000-0000-0000-000000000000\n" "ID" = Except.ok () ∧
    ("00000000-0000-0000-0000-000000000000\n" : String).length = 37 := by
  constructor
  · rfl
  · decide

/-- C1 (amended): `validate_uuid(value, label)` returns normally exactly when
`value` matches the case-insensitive 8-4-4-4-12 hex UUID pattern, or matches
that pattern followed by a single trailing newline (Python `$` semantics);
every other value yields an `HTTPException` with status 400 carrying `label`
in its detail.  A bare pattern match is necessarily 36 characters long, and
the validator performs no filesystem access (it is a pure string test). -/
theorem validate_uuid_characterization (value label : String) :
    (validate_uuid value label = Except.ok () ↔
      (UUIDShape value.data ∨ ∃ t, value.data = t ++ ['\n'] ∧ UUIDShape t)) ∧
    (validate_uuid value label = Except.ok () ∨
      validate_uuid value label =
        Except.error ⟨400, "잘못된 " ++ label ++ " 형식입니다"⟩) ∧
    (∀ t, UUIDShape t → t.length = 36) := by
  refine ⟨?_, ?_, fun t ht => uuidShape_length ht⟩
  · rw [← pyUUIDMatch_iff]
    unfold validate_uuid
    by_cases h : pyUUIDMatch value.data
    · simp [h]
    · simp [h]
  · unfold validate_uuid
    by_cases h : pyUUIDMatch value.data
    · simp [h]
    · simp [h]

/-- C1 witness: a canonical UUID string is accepted, via the amended
characterization applied at that concrete input. -/
theorem validate_uuid_characterization_witness :
    validate_uuid "123e4567-e89b-12d3-a456-426614174000" "ID" = Except.ok () ∧
    ("123e4567-e89b-12d3-a456-426614174000" : String).length = 36 := by
  refine ⟨?_, by decide⟩
  exact (validate_uuid_characterization "123e4567-e89b-12d3-a456-426614174000" "ID").1.mpr
    (Or.inl ⟨"123e4567".data, "e89b".data, "12d3".data, "a456".data,
      "426614174000".data, ⟨by decide, by decide⟩, ⟨by decide, by decide⟩,
      ⟨by decide, by decide⟩, ⟨by decide, by decide⟩, ⟨by decide, by decide⟩,
      by decide⟩)

/-! ## Filename sanitisation (backend/core.py `sanitize_title`, `sanitize_category_name`) -/

/-- Characters of the class removed by `re.sub(r'[\\/:*?"<>|]', '', title)`:
the Windows-forbidden filename characters. -/
def winBadChar (c : Char) : Bool :=
  c == '\\' || c == '/' || c == ':' || c == '*' || c == '?' || c == '"' ||
  c == '<' || c == '>' || c == '|'

/-- Whitespace as Python sees it for `str.strip()` and the `\s` class on
`str` patterns (ASCII whitespace, the C1 separators, and the Unicode space
characters). -/
def pyIsSpace (c : Char) : Bool :=
  c == ' ' || c == '\t' || c == '\n' || c == '\r' || c == '\x0b' || c == '\x0c' ||
  c == '\x1c' || c == '\x1d' || c == '\x1e' || c == '\x1f' || c == '\x85' ||
  c == '\xa0' || c == '\u1680' ||
  (decide ('\u2000' ≤ c) && decide (c ≤ '\u200a')) ||
  c == '\u2028' || c == '\u2029' || c == '\u202f' || c == '\u205f' || c == '\u3000'

/-- Remove trailing characters satisfying `p` (Python `str.rstrip`). -/
def stripEnd (p : Char → Bool) (l : List Char) : List Char :=
  (l.reverse.dropWhile p).reverse

/-- Remove leading and trailing characters satisfying `p` (Python
`str.strip()` / `str.strip('_')`). -/
def pyStrip (p : Char → Bool) (l : List Char) : List Char :=
  stripEnd p (l.dropWhile p)

/-- `re.sub(r'^\.+$', fallback, l)`: a string consisting solely of dots is
replaced by `fallback`.  Python's `$` also matches just before one final
newline, so a nonempty dot-run followed by a single trailing newline is
likewise replaced, the newline surviving after the substituted text. -/
def pyDotFallback (fallback : List Char) (l : List Char) : List Char :=
  if !l.isEmpty && l.all (fun c => c == '.') then fallback
  else if decide (l.getLast? = some '\n') && !l.dropLast.isEmpty &&
      l.dropLast.all (fun c => c == '.') then fallback ++ ['\n']
  else l

/-- `re.sub(r'\s+', '_', l)`: each maximal run of whitespace becomes one
underscore.  `inRun` records whether the previous character was whitespace. -/
def collapseWs : List Char → Bool → List Char
  | [], _ => []
  | c :: rest, inRun =>
    if pyIsSpace c then
      if inRun then collapseWs rest true else '_' :: collapseWs rest true
    else c :: collapseWs rest false

/-- `re.sub(r'_+', '_', l)`: each maximal run of underscores becomes one
underscore. -/
def collapseUnd : List Char → Bool → List Char
  | [], _ => []
  | c :: rest, inRun =>
    if c == '_' then
      if inRun then collapseUnd rest true else '_' :: collapseUnd rest true
    else c :: collapseUnd rest false

/-- Python `x or fb` on strings: an empty string falls back to `fb`. -/
def pyOr (l fb : List Char) : List Char := if l.isEmpty then fb else l

/-- Common body of `sanitize_title` and `sanitize_category_name`; the two
Python functions are line-for-line identical except for the fallback word.
Reading inside out: strip whitespace and fall back if empty; delete the
Windows-forbidden characters; replace an all-dots result by the fallback;
turn whitespace runs into `'_'`; collapse underscore runs; strip leading and
trailing underscores; truncate to 30 characters; fall back if empty. -/
def sanitizeCore (fallback : List Char) (s : List Char) : List Char :=
  pyOr ((pyStrip (fun c => c == '_')
    (collapseUnd (collapseWs (pyDotFallback fallback
      ((pyOr (pyStrip pyIsSpace s) fallback).filter (fun c => !winBadChar c)))
      false) false)).take 30) fallback

/-- Fallback word of `sanitize_title` ("new page" in Korean). -/
def pageFallback : List Char := "새_페이지".data

/-- Fallback word of `sanitize_category_name` ("new folder" in Korean). -/
def folderFallback : List Char := "새_폴더".data

/-- `sanitize_title` from backend/core.py. -/
def sanitize_title (title : String) : String :=
  ⟨sanitizeCore pageFallback title.data⟩

/-- `sanitize_category_name` from backend/core.py. -/
def sanitize_category_name (name : String) : String :=
  ⟨sanitizeCore folderFallback name.data⟩

example : sanitize_title "" = "새_페이지" := by decide
example : sanitize_title "a  b" = "a_b" := by decide
example : sanitize_title ".." = "새_페이지" := by decide
example : sanitize_title "_.._" = ".." := by decide
example : sanitize_title "hello world" = "hello_world" := by decide
example : sanitize_title "aaaaaaaaaaaaaaaaaaaaaaaaaaaaa b" =
    "aaaaaaaaaaaaaaaaaaaaaaaaaaaaa_" := by decide

/-! ### List utilities for the sanitiser proofs -/

lemma mem_of_dropWhile {p : Char → Bool} {l : List Char} {c : Char}
    (h : c ∈ l.dropWhile p) : c ∈ l := by
  induction l with
  | nil => simp at h
  | cons a l ih =>
    rw [List.dropWhile_cons] at h
    split at h
    · exact List.mem_cons_of_mem _ (ih h)
    · exact h

lemma mem_of_stripEnd {p : Char → Bool} {l : List Char} {c : Char}
    (h : c ∈ stripEnd p l) : c ∈ l := by
  unfold stripEnd at h
  rw [List.mem_reverse] at h
  exact List.mem_reverse.mp (mem_of_dropWhile h)

lemma mem_of_pyStrip {p : Char → Bool} {l : List Char} {c : Char}
    (h : c ∈ pyStrip p l) : c ∈ l :=
  mem_of_dropWhile (mem_of_stripEnd h)

lemma dropWhile_decomp (p : Char → Bool) (l : List Char) :
    ∃ s, l = s ++ l.dropWhile p := by
  induction l with
  | nil => exact ⟨[], rfl⟩
  | cons a l ih =>
    rw [List.dropWhile_cons]
    split
    · obtain ⟨s, hs⟩ := ih
      exact ⟨a :: s, by simpa using hs⟩
    · exact ⟨[], rfl⟩

lemma stripEnd_decomp (p : Char → Bool) (l : List Char) :
    ∃ t, l = stripEnd p l ++ t := by
  obtain ⟨s, hs⟩ := dropWhile_decomp p l.reverse
  refine ⟨s.reverse, ?_⟩
  have := congrArg List.reverse hs
  simpa [stripEnd] using this

lemma head?_of_append_eq {l res t : List Char} {c : Char}
    (hl : l = res ++ t) (h : res.head? = some c) : l.head? = some c := by
  subst hl
  cases res with
  | nil => cases h
  | cons a r => simpa using h

lemma head?_dropWhile_false {p : Char → Bool} {l : List Char} {c : Char}
    (h : (l.dropWhile p).head? = some c) : p c = false := by
  induction l with
  | nil => cases h
  | cons a l ih =>
    rw [List.dropWhile_cons] at h
    split at h
    · exact ih h
    · next hp =>
      rw [List.head?_cons, Option.some.injEq] at h
      subst h
      simpa using hp

lemma head?_stripEnd {p : Char → Bool} {l : List Char} {c : Char}
    (h : (stripEnd p l).head? = some c) : l.head? = some c := by
  obtain ⟨t, ht⟩ := stripEnd_decomp p l
  exact head?_of_append_eq ht h

lemma head?_pyStrip_false {p : Char → Bool} {l : List Char} {c : Char}
    (h : (pyStrip p l).head? = some c) : p c = false :=
  head?_dropWhile_false (head?_stripEnd h)

lemma getLast?_stripEnd_false {p : Char → Bool} {l : List Char} {c : Char}
    (h : (stripEnd p l).getLast? = some c) : p c = false := by
  unfold stripEnd at h
  rw [List.getLast?_reverse] at h
  exact head?_dropWhile_false h

lemma getLast?_pyStrip_false {p : Char → Bool} {l : List Char} {c : Char}
    (h : (pyStrip p l).getLast? = some c) : p c = false :=
  getLast?_stripEnd_false h

lemma head?_take {n : Nat} {l : List Char} {c : Char}
    (h : (l.take n).head? = some c) : l.head? = some c := by
  cases l with
  | nil => simp at h
  | cons a l =>
    cases n with
    | zero => cases h
    | succ n => simpa using h

lemma mem_of_take {n : Nat} {l : List Char} {c : Char}
    (h : c ∈ l.take n) : c ∈ l := by
  have := List.take_append_drop n l
  rw [← this]
  exact List.mem_append_left _ h

/-- No two adjacent underscores anywhere in the list. -/
def noDoubleUnd : List Char → Bool
  | [] => true
  | [_] => true
  | a :: b :: rest => !(a == '_' && b == '_') && noDoubleUnd (b :: rest)

lemma noDoubleUnd_tail {a : Char} {l : List Char}
    (h : noDoubleUnd (a :: l) = true) : noDoubleUnd l = true := by
  cases l with
  | nil => rfl
  | cons b l => exact (Bool.and_eq_true .. ▸ h).2

lemma noDoubleUnd_append_left : ∀ {l t : List Char},
    noDoubleUnd (l ++ t) = true → noDoubleUnd l = true
  | [], _, _ => rfl
  | [_], _, _ => rfl
  | a :: b :: l, t, h => by
    have h' : noDoubleUnd (a :: b :: (l ++ t)) = true := by simpa using h
    rw [noDoubleUnd, Bool.and_eq_true] at h'
    rw [noDoubleUnd, Bool.and_eq_true]
    exact ⟨h'.1, noDoubleUnd_append_left (l := b :: l) (by simpa using h'.2)⟩

lemma noDoubleUnd_append_right : ∀ {s l : List Char},
    noDoubleUnd (s ++ l) = true → noDoubleUnd l = true
  | [], _, h => h
  | a :: s, l, h => by
    have h' : noDoubleUnd (a :: (s ++ l)) = true := by simpa using h
    exact noDoubleUnd_append_right (noDoubleUnd_tail h')

lemma noDoubleUnd_cons_of {a : Char} {l : List Char}
    (hl : noDoubleUnd l = true)
    (hh : ∀ c, l.head? = some c → ¬(a = '_' ∧ c = '_')) :
    noDoubleUnd (a :: l) = true := by
  cases l with
  | nil => rfl
  | cons b l =>
    rw [noDoubleUnd, Bool.and_eq_true]
    refine ⟨?_, hl⟩
    have := hh b rfl
    simp only [Bool.not_eq_true', Bool.and_eq_false_iff, beq_eq_false_iff_ne]
    by_cases hab : a = '_'
    · exact Or.inr (fun hb => this ⟨hab, hb⟩)
    · exact Or.inl hab

lemma collapseUnd_head_true {l : List Char} {c : Char}
    (h : (collapseUnd l true).head? = some c) : c ≠ '_' := by
  induction l with
  | nil => cases h
  | cons a l ih =>
    simp only [collapseUnd] at h
    by_cases ha : a == '_'
    · rw [if_pos ha] at h
      simp only [if_true] at h
      exact ih h
    · rw [if_neg ha] at h
      rw [List.head?_cons, Option.some.injEq] at h
      subst h
      simpa using ha

lemma collapseUnd_noDouble (l : List Char) : ∀ b, noDoubleUnd (collapseUnd l b) = true := by
  induction l with
  | nil => intro b; rfl
  | cons a l ih =>
    intro b
    simp only [collapseUnd]
    by_cases ha : a == '_'
    · rw [if_pos ha]
      cases b with
      | true => rw [if_pos rfl]; exact ih true
      | false =>
        rw [if_neg (by simp)]
        refine noDoubleUnd_cons_of (ih true) ?_
        intro c hc h2
        exact collapseUnd_head_true hc h2.2
    · rw [if_neg ha]
      refine noDoubleUnd_cons_of (ih false) ?_
      intro c _ h2
      exact absurd h2.1 (by simpa using ha)

lemma collapseUnd_eq_self {l : List Char} (hl : noDoubleUnd l = true) :
    ∀ {b : Bool}, (b = true → l.head? ≠ some '_') → collapseUnd l b = l := by
  induction l with
  | nil => intro b _; rfl
  | cons a l ih =>
    intro b hb
    simp only [collapseUnd]
    by_cases ha : a == '_'
    · have ha' : a = '_' := by simpa using ha
      have hbf : b = false := by
        cases b with
        | true => exact absurd (by rw [ha'] ; rfl : (a :: l).head? = some '_') (hb rfl)
        | false => rfl
      subst hbf
      rw [if_pos ha, if_neg (by simp)]
      have hltail : l.head? ≠ some '_' := by
        cases l with
        | nil => simp
        | cons c l2 =>
          rw [noDoubleUnd, Bool.and_eq_true] at hl
          have h1 := hl.1
          rw [ha'] at h1
          simp only [List.head?_cons, ne_eq, Option.some.injEq]
          intro hc
          rw [hc] at h1
          simp at h1
      rw [ih (noDoubleUnd_tail hl) (fun _ => hltail), ha']
    · rw [if_neg ha]
      rw [ih (noDoubleUnd_tail hl) (by intro hfalse; cases hfalse)]

lemma mem_collapseWs {c : Char} {l : List Char} : ∀ {b : Bool},
    c ∈ collapseWs l b → c = '_' ∨ (c ∈ l ∧ pyIsSpace c = false) := by
  induction l with
  | nil => intro b h; simp [collapseWs] at h
  | cons a l ih =>
    intro b h
    simp only [collapseWs] at h
    by_cases ha : pyIsSpace a = true
    · rw [if_pos ha] at h
      cases b with
      | true =>
        rcases ih h with h1 | ⟨h1, h2⟩
        · exact Or.inl h1
        · exact Or.inr ⟨List.mem_cons_of_mem _ h1, h2⟩
      | false =>
        rw [if_neg (by simp)] at h
        rcases List.mem_cons.mp h with rfl | h2
        · exact Or.inl rfl
        · rcases ih h2 with h1 | ⟨h1, h3⟩
          · exact Or.inl h1
          · exact Or.inr ⟨List.mem_cons_of_mem _ h1, h3⟩
    · rw [if_neg ha] at h
      rcases List.mem_cons.mp h with rfl | h2
      · exact Or.inr ⟨List.mem_cons_self _ _, by simpa using ha⟩
      · rcases ih h2 with h1 | ⟨h1, h3⟩
        · exact Or.inl h1
        · exact Or.inr ⟨List.mem_cons_of_mem _ h1, h3⟩

lemma mem_collapseUnd {c : Char} {l : List Char} : ∀ {b : Bool},
    c ∈ collapseUnd l b → c ∈ l := by
  induction l with
  | nil => intro b h; simp [collapseUnd] at h
  | cons a l ih =>
    intro b h
    simp only [collapseUnd] at h
    by_cases ha : a == '_'
    · have ha' : a = '_' := by simpa using ha
      rw [if_pos ha] at h
      cases b with
      | true => exact List.mem_cons_of_mem _ (ih h)
      | false =>
        rw [if_neg (by simp)] at h
        rcases List.mem_cons.mp h with rfl | h2
        · rw [ha']; exact List.mem_cons_self _ _
        · exact List.mem_cons_of_mem _ (ih h2)
    · rw [if_neg ha] at h
      rcases List.mem_cons.mp h with rfl | h2
      · exact List.mem_cons_self _ _
      · exact List.mem_cons_of_mem _ (ih h2)

lemma collapseWs_eq_self {l : List Char} (hl : ∀ c ∈ l, pyIsSpace c = false) :
    ∀ b, collapseWs l b = l := by
  induction l with
  | nil => intro b; rfl
  | cons a l ih =>
    intro b
    simp only [collapseWs]
    rw [if_neg (by simp [hl a (List.mem_cons_self _ _)])]
    rw [ih (fun c hc => hl c (List.mem_cons_of_mem _ hc))]

/-- Membership in the output of `pyDotFallback` comes from the fallback, a
trailing newline, or the input. -/
lemma mem_pyDotFallback {fb l : List Char} {c : Char}
    (h : c ∈ pyDotFallback fb l) : c ∈ fb ∨ c = '\n' ∨ c ∈ l := by
  unfold pyDotFallback at h
  split at h
  · exact Or.inl h
  · split at h
    · rcases List.mem_append.mp h with h | h
      · exact Or.inl h
      · simp only [List.mem_singleton] at h
        exact Or.inr (Or.inl h)
    · exact Or.inr (Or.inr h)

/-- Structural invariants satisfied by every value the sanitiser returns:
nonempty, at most 30 characters, free of Windows-forbidden characters and
whitespace, no doubled underscore, and no leading underscore. -/
def SanInv (l : List Char) : Prop :=
  l ≠ [] ∧ l.length ≤ 30 ∧ (∀ c ∈ l, winBadChar c = false) ∧
  (∀ c ∈ l, pyIsSpace c = false) ∧ noDoubleUnd l = true ∧ l.head? ≠ some '_'

lemma sanInv_pageFallback : SanInv pageFallback := by
  unfold SanInv
  refine ⟨by decide, by decide, by decide, by decide, by decide, by decide⟩

lemma sanInv_folderFallback : SanInv folderFallback := by
  unfold SanInv
  refine ⟨by decide, by decide, by decide, by decide, by decide, by decide⟩

lemma isEmpty_false_ne {l : List Char} (h : l.isEmpty = false) : l ≠ [] := by
  cases l with
  | nil => cases h
  | cons a l => exact List.cons_ne_nil a l

/-- Invariants of the pipeline tail (whitespace collapse onwards), for any
input `u` whose characters are filesystem-safe. -/
lemma sanitize_tail_inv {fb u : List Char} (hfb : SanInv fb)
    (hbadu : ∀ c ∈ u, winBadChar c = false) :
    SanInv (pyOr ((pyStrip (fun c => c == '_')
      (collapseUnd (collapseWs u false) false)).take 30) fb) := by
  unfold pyOr
  by_cases hE : ((pyStrip (fun c => c == '_')
      (collapseUnd (collapseWs u false) false)).take 30).isEmpty = true
  · rw [if_pos hE]; exact hfb
  · rw [if_neg hE]
    have hmem : ∀ c ∈ (pyStrip (fun c => c == '_')
        (collapseUnd (collapseWs u false) false)).take 30,
        c = '_' ∨ (c ∈ u ∧ pyIsSpace c = false) := by
      intro c hc
      exact mem_collapseWs (mem_collapseUnd (mem_of_pyStrip (mem_of_take hc)))
    have hnd5 : noDoubleUnd (collapseUnd (collapseWs u false) false) = true :=
      collapseUnd_noDouble _ false
    have hnd6 : noDoubleUnd (pyStrip (fun c => c == '_')
        (collapseUnd (collapseWs u false) false)) = true := by
      obtain ⟨s0, hs0⟩ := dropWhile_decomp (fun c => c == '_')
        (collapseUnd (collapseWs u false) false)
      obtain ⟨t, htt⟩ := stripEnd_decomp (fun c => c == '_')
        ((collapseUnd (collapseWs u false) false).dropWhile (fun c => c == '_'))
      have h1 := noDoubleUnd_append_right (hs0 ▸ hnd5)
      exact noDoubleUnd_append_left (htt ▸ h1)
    have hnd7 : noDoubleUnd ((pyStrip (fun c => c == '_')
        (collapseUnd (collapseWs u false) false)).take 30) = true := by
      have := List.take_append_drop 30 (pyStrip (fun c => c == '_')
        (collapseUnd (collapseWs u false) false))
      exact noDoubleUnd_append_left (this ▸ hnd6)
    refine ⟨isEmpty_false_ne (by simpa using hE), ?_, ?_, ?_, hnd7, ?_⟩
    · exact List.length_take_le ..
    · intro c hc
      rcases hmem c hc with rfl | ⟨hcu, _⟩
      · decide
      · exact hbadu c hcu
    · intro c hc
      rcases hmem c hc with rfl | ⟨_, hws⟩
      · decide
      · exact hws
    · intro hhd
      have := head?_pyStrip_false (head?_take hhd)
      simp at this

/-- Every output of the sanitiser core satisfies `SanInv`. -/
lemma sanitizeCore_inv {fb : List Char} (hfb : SanInv fb) (s : List Char) :
    SanInv (sanitizeCore fb s) := by
  have hbad3 : ∀ c ∈ pyDotFallback fb
      ((pyOr (pyStrip pyIsSpace s) fb).filter
        (fun c => !winBadChar c)), winBadChar c = false := by
    intro c hc
    rcases mem_pyDotFallback hc with h | h | h
    · exact hfb.2.2.1 c h
    · subst h; decide
    · have := (List.mem_filter.mp h).2
      simpa using this
  have hbad3' : ∀ c ∈ pyDotFallback fb
      ((pyOr (pyStrip pyIsSpace s) fb).filter (fun c => !winBadChar c)),
      winBadChar c = false := hbad3
  exact sanitize_tail_inv hfb hbad3'


lemma sanitize_title_eq (y : String) :
    sanitize_title y = String.mk (sanitizeCore pageFallback y.data) := rfl

lemma sanitize_category_name_eq (y : String) :
    sanitize_category_name y = String.mk (sanitizeCore folderFallback y.data) := rfl

lemma string_data_mk (l : List Char) : (String.mk l).data = l := rfl

lemma string_data_nil : ("" : String).data = [] := rfl

lemma string_length_mk (l : List Char) : (String.mk l).length = l.length := rfl

/-- C2 (confirmed): for every string `x`, `sanitize_title x` and
`sanitize_category_name x` contain none of the filesystem-hostile characters
`\ / : * ? " < > |`, are non-empty, and are at most 30 characters long. -/
theorem sanitize_safety (x : String) :
    (∀ c ∈ (sanitize_title x).data, winBadChar c = false) ∧
    sanitize_title x ≠ "" ∧ (sanitize_title x).length ≤ 30 ∧
    (∀ c ∈ (sanitize_category_name x).data, winBadChar c = false) ∧
    sanitize_category_name x ≠ "" ∧ (sanitize_category_name x).length ≤ 30 := by
  obtain ⟨a1, b1, c1, -, -, -⟩ := sanitizeCore_inv sanInv_pageFallback x.data
  obtain ⟨a2, b2, c2, -, -, -⟩ := sanitizeCore_inv sanInv_folderFallback x.data
  rw [sanitize_title_eq, sanitize_category_name_eq]
  simp only [string_data_mk, string_length_mk]
  refine ⟨c1, ?_, b1, c2, ?_, b2⟩
  · intro h
    have h2 := congrArg String.data h
    rw [string_data_mk, string_data_nil] at h2
    exact a1 h2
  · intro h
    have h2 := congrArg String.data h
    rw [string_data_mk, string_data_nil] at h2
    exact a2 h2

/-- C2 witness: the safety theorem applied at the concrete input "a/b". -/
theorem sanitize_safety_witness :
    (∀ c ∈ (sanitize_title "a/b").data, winBadChar c = false) ∧
    sanitize_title "a/b" ≠ "" ∧ (sanitize_title "a/b").length ≤ 30 ∧
    (∀ c ∈ (sanitize_category_name "a/b").data, winBadChar c = false) ∧
    sanitize_category_name "a/b" ≠ "" ∧ (sanitize_category_name "a/b").length ≤ 30 :=
  sanitize_safety "a/b"

/-! ### Idempotence analysis (claim C3) -/

lemma mem_of_head?_eq {l : List Char} {c : Char} (h : l.head? = some c) : c ∈ l := by
  cases l with
  | nil => cases h
  | cons a l =>
    rw [List.head?_cons, Option.some.injEq] at h
    subst h
    exact List.mem_cons_self _ _

lemma mem_of_getLast?_eq {l : List Char} {c : Char} (h : l.getLast? = some c) : c ∈ l := by
  have h2 : l.reverse.head? = some c := by rw [List.head?_reverse]; exact h
  exact List.mem_reverse.mp (mem_of_head?_eq h2)

lemma dropWhile_eq_self_of_head {p : Char → Bool} {l : List Char}
    (h : ∀ c, l.head? = some c → p c = false) : l.dropWhile p = l := by
  cases l with
  | nil => rfl
  | cons a l => rw [List.dropWhile_cons, if_neg (by simp [h a rfl])]

lemma stripEnd_eq_self_of_getLast {p : Char → Bool} {l : List Char}
    (h : ∀ c, l.getLast? = some c → p c = false) : stripEnd p l = l := by
  unfold stripEnd
  rw [dropWhile_eq_self_of_head, List.reverse_reverse]
  intro c hc
  rw [List.head?_reverse] at hc
  exact h c hc

lemma pyStrip_eq_self {p : Char → Bool} {l : List Char}
    (hh : ∀ c, l.head? = some c → p c = false)
    (hl : ∀ c, l.getLast? = some c → p c = false) : pyStrip p l = l := by
  unfold pyStrip
  rw [dropWhile_eq_self_of_head hh, stripEnd_eq_self_of_getLast hl]

/-- Any list satisfying the sanitiser's output invariants, not ending in an
underscore and not consisting solely of dots, is a fixed point of the
sanitiser core. -/
lemma sanitizeCore_fixed {fb l : List Char}
    (hne : l ≠ [])
    (hlen : l.length ≤ 30)
    (hbad : ∀ c ∈ l, winBadChar c = false)
    (hws : ∀ c ∈ l, pyIsSpace c = false)
    (hnd : noDoubleUnd l = true)
    (hhead : l.head? ≠ some '_')
    (hlast : l.getLast? ≠ some '_')
    (hdots : l.all (fun c => c == '.') = false) :
    sanitizeCore fb l = l := by
  have hEm : l.isEmpty = false := by
    cases l with
    | nil => exact absurd rfl hne
    | cons a t => rfl
  have hOr : ∀ fb2 : List Char, pyOr l fb2 = l := by
    intro fb2
    unfold pyOr
    rw [hEm]
    simp only [Bool.false_eq_true, if_false]
  unfold sanitizeCore
  rw [pyStrip_eq_self (fun c hc => hws c (mem_of_head?_eq hc))
    (fun c hc => hws c (mem_of_getLast?_eq hc))]
  rw [hOr]
  rw [List.filter_eq_self.mpr (fun c hc => by simp [hbad c hc])]
  have hpd : pyDotFallback fb l = l := by
    unfold pyDotFallback
    rw [if_neg (by simp [hdots]), if_neg ?_]
    intro hcond
    rw [Bool.and_eq_true, Bool.and_eq_true] at hcond
    have h1 := of_decide_eq_true hcond.1.1
    have := hws '\n' (mem_of_getLast?_eq h1)
    exact absurd this (by decide)
  rw [hpd]
  rw [collapseWs_eq_self hws false]
  rw [collapseUnd_eq_self hnd (fun _ => hhead)]
  rw [pyStrip_eq_self ?_ ?_]
  · rw [List.take_of_length_le hlen, hOr]
  · intro c hc
    have : c ≠ '_' := fun h => hhead (h ▸ hc)
    simpa using this
  · intro c hc
    have : c ≠ '_' := fun h => hlast (h ▸ hc)
    simpa using this

/-- C3 counterexample: `sanitize_title` is not idempotent.  Truncation to 30
characters can leave a trailing underscore, which a second application
strips: 29 letters, a space and a letter sanitise to 29 letters plus `'_'`,
and sanitising that drops the underscore. -/
theorem sanitize_title_not_idempotent :
    sanitize_title (sanitize_title "aaaaaaaaaaaaaaaaaaaaaaaaaaaaa b") ≠
      sanitize_title "aaaaaaaaaaaaaaaaaaaaaaaaaaaaa b" := by decide

/-- C3 (amended): `sanitize_title` (and likewise `sanitize_category_name`)
is idempotent at every input whose sanitised form does not end in an
underscore and does not consist solely of dots.  (The excluded cases are
real: 30-character truncation can expose a trailing underscore, and
underscore-stripping can expose an all-dots string, and then a second
application differs.) -/
theorem sanitize_idempotent_unless_edge (x : String) :
    ((sanitize_title x).data.getLast? ≠ some '_' →
      (sanitize_title x).data.all (fun c => c == '.') = false →
      sanitize_title (sanitize_title x) = sanitize_title x) ∧
    ((sanitize_category_name x).data.getLast? ≠ some '_' →
      (sanitize_category_name x).data.all (fun c => c == '.') = false →
      sanitize_category_name (sanitize_category_name x) = sanitize_category_name x) := by
  rw [sanitize_title_eq (sanitize_title x), sanitize_title_eq x,
    sanitize_category_name_eq (sanitize_category_name x), sanitize_category_name_eq x]
  simp only [string_data_mk]
  constructor
  · intro h1 h2
    obtain ⟨a, b, c, d, e, f⟩ := sanitizeCore_inv sanInv_pageFallback x.data
    exact congrArg String.mk
      (@sanitizeCore_fixed pageFallback (sanitizeCore pageFallback x.data)
        a b c d e f h1 h2)
  · intro h1 h2
    obtain ⟨a, b, c, d, e, f⟩ := sanitizeCore_inv sanInv_folderFallback x.data
    exact congrArg String.mk
      (@sanitizeCore_fixed folderFallback (sanitizeCore folderFallback x.data)
        a b c d e f h1 h2)

/-- C3 witness: the conditional idempotence applied at "hello world" (for
both sanitisers), whose output ends in a letter. -/
theorem sanitize_idempotent_witness :
    ((sanitize_title "hello world").data.getLast? ≠ some '_' ∧
      (sanitize_title "hello world").data.all (fun c => c == '.') = false ∧
      sanitize_title (sanitize_title "hello world") = sanitize_title "hello world") ∧
    ((sanitize_category_name "hello world").data.getLast? ≠ some '_' ∧
      (sanitize_category_name "hello world").data.all (fun c => c == '.') = false ∧
      sanitize_category_name (sanitize_category_name "hello world") =
        sanitize_category_name "hello world") :=
  ⟨⟨by decide, by decide,
    (sanitize_idempotent_unless_edge "hello world").1 (by decide) (by decide)⟩,
   ⟨by decide, by decide,
    (sanitize_idempotent_unless_edge "hello world").2 (by decide) (by decide)⟩⟩

/-! ## The index file (backend/core.py `load_index`, `save_index`) -/

/-- One category record of the index (`{id, name, folderName, parentId}`). -/
structure Category where
  id : String
  name : String
  folderName : String
  parentId : Option String
deriving DecidableEq

/-- The JSON object stored in `_index.json`, as the code sees it: a
dictionary in which every field may be absent (`none`).  JSON objects
(`folderMap`, `categoryMap`, `categoryChildOrder`) are association lists in
insertion order; `currentPageId` distinguishes an absent key (`none`) from a
key holding JSON `null` (`some none`). -/
structure Index where
  pageOrder : Option (List String)
  currentPageId : Option (Option String)
  folderMap : Option (List (String × String))
  categories : Option (List Category)
  categoryMap : Option (List (String × String))
  categoryOrder : Option (List String)
  categoryChildOrder : Option (List (String × List String))
deriving DecidableEq

/-- Python `d.get(k)` on an association-list dictionary (first matching key). -/
def dictGet {α : Type} (d : List (String × α)) (k : String) : Option α :=
  match d with
  | [] => none
  | (k0, v) :: rest => if k0 = k then some v else dictGet rest k

/-- Helper of `dictSet`: replace the value stored under `k` in place. -/
def dictReplace {α : Type} : List (String × α) → String → α → List (String × α)
  | [], _, _ => []
  | (k0, v0) :: rest, k, v =>
    if k0 = k then (k, v) :: dictReplace rest k v
    else (k0, v0) :: dictReplace rest k v

/-- Python `d[k] = v`: replace the value in place when the key is present
(keeping dictionary insertion order), else append the new pair at the end. -/
def dictSet {α : Type} (d : List (String × α)) (k : String) (v : α) :
    List (String × α) :=
  if (dictGet d k).isSome then dictReplace d k v else d ++ [(k, v)]

/-- Python `d.pop(k, None)` / `del d[k]`: remove the key. -/
def dictRemove {α : Type} (d : List (String × α)) (k : String) :
    List (String × α) :=
  d.filter (fun p => p.1 != k)

lemma dictGet_dictReplace_self {α : Type} {d : List (String × α)} {k : String}
    (v : α) (h : (dictGet d k).isSome) : dictGet (dictReplace d k v) k = some v := by
  induction d with
  | nil => simp [dictGet] at h
  | cons p rest ih =>
    obtain ⟨k0, v0⟩ := p
    by_cases h0 : k0 = k
    · simp [dictReplace, h0, dictGet]
    · simp only [dictGet, if_neg h0] at h
      simp [dictReplace, h0, dictGet, ih h]

lemma dictGet_dictReplace_other {α : Type} {d : List (String × α)} {k q : String}
    (v : α) (hq : q ≠ k) : dictGet (dictReplace d k v) q = dictGet d q := by
  induction d with
  | nil => rfl
  | cons p rest ih =>
    obtain ⟨k0, v0⟩ := p
    by_cases h0 : k0 = k
    · subst h0
      have : ¬(k0 = q) := fun h => hq h.symm
      simp [dictReplace, dictGet, this, ih]
    · by_cases h1 : k0 = q
      · simp [dictReplace, h0, dictGet, h1, hq]
      · simp [dictReplace, h0, dictGet, h1, ih]

lemma dictGet_append_of_some {α : Type} {d e : List (String × α)} {q : String}
    {w : α} (h : dictGet d q = some w) : dictGet (d ++ e) q = some w := by
  induction d with
  | nil => simp [dictGet] at h
  | cons p rest ih =>
    obtain ⟨k0, v0⟩ := p
    by_cases h0 : k0 = q
    · simp only [dictGet, if_pos h0] at h
      simp [dictGet, h0, h]
    · simp only [dictGet, if_neg h0] at h
      simp [dictGet, h0, ih h]

lemma dictGet_append_of_none {α : Type} {d e : List (String × α)} {q : String}
    (h : dictGet d q = none) : dictGet (d ++ e) q = dictGet e q := by
  induction d with
  | nil => rfl
  | cons p rest ih =>
    obtain ⟨k0, v0⟩ := p
    by_cases h0 : k0 = q
    · simp [dictGet, if_pos h0] at h
    · simp only [dictGet, if_neg h0] at h
      simp [dictGet, h0, ih h]

lemma dictGet_dictSet {α : Type} (d : List (String × α)) (k : String) (v : α)
    (q : String) :
    dictGet (dictSet d k v) q = if q = k then some v else dictGet d q := by
  unfold dictSet
  by_cases hk : (dictGet d k).isSome
  · rw [if_pos hk]
    by_cases hq : q = k
    · subst hq
      rw [if_pos rfl, dictGet_dictReplace_self v hk]
    · rw [if_neg hq, dictGet_dictReplace_other v hq]
  · rw [if_neg hk]
    have hnone : dictGet d k = none := by
      cases hd : dictGet d k with
      | none => rfl
      | some w => rw [hd] at hk; simp at hk
    by_cases hq : q = k
    · subst hq
      rw [if_pos rfl, dictGet_append_of_none hnone]
      simp [dictGet]
    · rw [if_neg hq]
      cases hd : dictGet d q with
      | none =>
        rw [dictGet_append_of_none hd]
        simp only [dictGet]
        rw [if_neg (fun h : k = q => hq h.symm)]
      | some w => rw [dictGet_append_of_some hd]

lemma dictGet_dictRemove {α : Type} (d : List (String × α)) (k q : String) :
    dictGet (dictRemove d k) q = if q = k then none else dictGet d q := by
  induction d with
  | nil => simp [dictRemove, dictGet]
  | cons p rest ih =>
    obtain ⟨k0, v0⟩ := p
    have hrest : List.filter (fun p => p.1 != k) rest = dictRemove rest k := rfl
    by_cases h0 : k0 = k
    · subst h0
      have hf : (k0 != k0) = false := by simp
      rw [dictRemove, List.filter_cons]
      rw [hf]
      simp only [Bool.false_eq_true, if_false]
      rw [hrest, ih]
      by_cases hq : q = k0
      · simp [hq]
      · rw [if_neg hq, if_neg hq, dictGet, if_neg (fun h => hq h.symm)]
    · have ht : (k0 != k) = true := by simpa using h0
      rw [dictRemove, List.filter_cons, ht]
      simp only [if_true]
      by_cases hq : k0 = q
      · subst hq
        rw [dictGet, if_pos rfl, if_neg (fun h : k0 = k => h0 h), dictGet,
          if_pos rfl]
      · rw [dictGet, if_neg hq, hrest, ih, dictGet, if_neg hq]

/-- `load_index()` from backend/core.py.  The argument is the parsed content
of `_index.json` (`some data`), or `none` when the file does not exist.  The
code back-fills only `folderMap`, `categories`, `categoryMap` and
`categoryOrder` (four `setdefault` calls); `categoryChildOrder` is left as
parsed, and the missing-file default carries no `categoryChildOrder` key
either. -/
def load_index : Option Index → Index
  | some data =>
    { data with
      folderMap := some (data.folderMap.getD []),
      categories := some (data.categories.getD []),
      categoryMap := some (data.categoryMap.getD []),
      categoryOrder := some (data.categoryOrder.getD []) }
  | none =>
    { pageOrder := some [],
      currentPageId := some none,
      folderMap := some [],
      categories := some [],
      categoryMap := some [],
      categoryOrder := some [],
      categoryChildOrder := none }

/-- `save_index(data)` from backend/core.py: the same four `setdefault`s are
applied before serialisation; the result models the object written to disk. -/
def save_index (data : Index) : Index :=
  { data with
    folderMap := some (data.folderMap.getD []),
    categories := some (data.categories.getD []),
    categoryMap := some (data.categoryMap.getD []),
    categoryOrder := some (data.categoryOrder.getD []) }

/-- An index file that parses to a JSON object with none of the optional
fields present (the oldest on-disk format). -/
def emptyRawIndex : Index :=
  { pageOrder := none, currentPageId := none, folderMap := none,
    categories := none, categoryMap := none, categoryOrder := none,
    categoryChildOrder := none }

/-- C4 counterexample: loading an index object with all five optional
collections missing back-fills only four of them; `categoryChildOrder` is
left absent (`none`) instead of being defaulted to an empty mapping as the
claim states. -/
theorem load_index_missing_childOrder :
    (load_index (some emptyRawIndex)).categoryChildOrder = none ∧
    (load_index (some emptyRawIndex)).folderMap = some [] ∧
    (load_index (some emptyRawIndex)).categories = some [] ∧
    (load_index (some emptyRawIndex)).categoryMap = some [] ∧
    (load_index (some emptyRawIndex)).categoryOrder = some [] :=
  ⟨rfl, rfl, rfl, rfl, rfl⟩

/-- C4 (amended): `load_index` back-fills exactly the four fields
`folderMap`, `categories`, `categoryMap` and `categoryOrder` with empty
defaults, keeps their present values otherwise, and leaves every other field
— in particular `categoryChildOrder` — exactly as parsed (the routers
default that one at each use site); when the index file is absent it returns
the default index with empty `pageOrder`, null `currentPageId`, the four
empty collections, and no `categoryChildOrder` entry. -/
theorem load_index_defaults (raw : Index) :
    (load_index (some raw)).folderMap = some (raw.folderMap.getD []) ∧
    (load_index (some raw)).categories = some (raw.categories.getD []) ∧
    (load_index (some raw)).categoryMap = some (raw.categoryMap.getD []) ∧
    (load_index (some raw)).categoryOrder = some (raw.categoryOrder.getD []) ∧
    (load_index (some raw)).pageOrder = raw.pageOrder ∧
    (load_index (some raw)).currentPageId = raw.currentPageId ∧
    (load_index (some raw)).categoryChildOrder = raw.categoryChildOrder ∧
    load_index none =
      { pageOrder := some [], currentPageId := some none, folderMap := some [],
        categories := some [], categoryMap := some [], categoryOrder := some [],
        categoryChildOrder := none } :=
  ⟨rfl, rfl, rfl, rfl, rfl, rfl, rfl, rfl⟩

/-! ## Folder resolution (backend/core.py `get_folder_name`,
`get_category_folder_name`) -/

/-- `get_folder_name(page_id, index)` from backend/core.py.  The filesystem
probe `(VAULT_DIR / page_id).exists()` is passed in as `legacyDirExists`.
Python's `if folder_name:` is truthy only for a present, non-empty string. -/
def get_folder_name (page_id : String) (index : Index) (legacyDirExists : Bool) :
    String :=
  let folder_name := (dictGet (index.folderMap.getD []) page_id).getD ""
  if folder_name ≠ "" then folder_name
  else if legacyDirExists then page_id
  else page_id

/-- The simple function the claim compares against: `folderMap[page_id]`
when present and non-empty, else `page_id` itself. -/
def get_folder_name_spec (page_id : String) (index : Index) : String :=
  let folder_name := (dictGet (index.folderMap.getD []) page_id).getD ""
  if folder_name ≠ "" then folder_name else page_id

/-- C10 (confirmed): the legacy-directory filesystem probe inside
`get_folder_name` never changes the returned value — both its branches
return `page_id` — so the function is extensionally the plain
`folderMap`-lookup with fallback to the id, for every index and every state
of the filesystem probe. -/
theorem get_folder_name_eq_spec (page_id : String) (index : Index)
    (legacyDirExists : Bool) :
    get_folder_name page_id index legacyDirExists =
      get_folder_name_spec page_id index := by
  unfold get_folder_name get_folder_name_spec
  split
  · rfl
  · cases legacyDirExists with
    | true => rfl
    | false => rfl

/-- `get_category_folder_name(cat_id, index)` from backend/core.py:
`if not cat_id: return None` (both `None` and the empty string are falsy),
else the `folderName` of the first category whose id matches, or `None`. -/
def get_category_folder_name (cat_id : Option String) (index : Index) :
    Option String :=
  match cat_id with
  | none => none
  | some cid =>
    if cid = "" then none
    else ((index.categories.getD []).find? (fun c => c.id == cid)).map
      Category.folderName

/-! ## Page reordering (backend/routers/pages.py `reorder_pages`) -/

/-- `reorder_pages(body)` from backend/routers/pages.py: keep the requested
ids that exist in the current `pageOrder` (in requested order), then append
every current id not already in the new order, and store the result. -/
def reorder_pages (order : List String) (index : Index) : Index :=
  let cur := index.pageOrder.getD []
  let new1 := order.filter (fun pid => decide (pid ∈ cur))
  let new2 := cur.foldl
    (fun acc pid => if pid ∈ acc then acc else acc ++ [pid]) new1
  save_index { index with pageOrder := some new2 }

/-- The ordering the claim describes: the requested ids that occur in the
current order (in request order), then the current ids missing from the
request (in current order). -/
def reorder_spec (cur order : List String) : List String :=
  order.filter (fun pid => decide (pid ∈ cur)) ++
    cur.filter (fun pid => decide (pid ∉ order))

lemma reorder_fold_preserves : ∀ (cur : List String) (acc : List String)
    (pid : String), (pid ∈ cur ∨ pid ∈ acc) →
    pid ∈ cur.foldl (fun acc pid => if pid ∈ acc then acc else acc ++ [pid]) acc
  | [], acc, pid, h => by
    rcases h with h | h
    · simp at h
    · simpa using h
  | a :: tl, acc, pid, h => by
    rw [List.foldl_cons]
    have hacc : ∀ q, q ∈ acc → q ∈ (if a ∈ acc then acc else acc ++ [a]) := by
      intro q hq
      split
      · exact hq
      · exact List.mem_append_left _ hq
    have ha : a ∈ (if a ∈ acc then acc else acc ++ [a]) := by
      split
      · assumption
      · exact List.mem_append_right _ (List.mem_singleton.mpr rfl)
    rcases h with h | h
    · rcases List.mem_cons.mp h with rfl | h2
      · exact reorder_fold_preserves tl _ pid (Or.inr ha)
      · exact reorder_fold_preserves tl _ pid (Or.inl h2)
    · exact reorder_fold_preserves tl _ pid (Or.inr (hacc pid h))

lemma reorder_fold_nodup : ∀ (cur : List String), cur.Nodup → ∀ (acc : List String),
    cur.foldl (fun acc pid => if pid ∈ acc then acc else acc ++ [pid]) acc =
      acc ++ cur.filter (fun pid => decide (pid ∉ acc))
  | [], _, acc => by simp
  | a :: tl, hnd, acc => by
    have hand : a ∉ tl ∧ tl.Nodup := by
      rw [List.nodup_cons] at hnd
      exact hnd
    rw [List.foldl_cons, List.filter_cons]
    by_cases ha : a ∈ acc
    · rw [if_pos ha]
      have : (decide (a ∉ acc)) = false := by simpa using ha
      rw [this]
      simp only [Bool.false_eq_true, if_false]
      exact reorder_fold_nodup tl hand.2 acc
    · rw [if_neg ha]
      have : (decide (a ∉ acc)) = true := by simpa using ha
      rw [this]
      simp only [if_true]
      rw [reorder_fold_nodup tl hand.2 (acc ++ [a])]
      have hfilter : tl.filter (fun pid => decide (pid ∉ acc ++ [a])) =
          tl.filter (fun pid => decide (pid ∉ acc)) := by
        apply List.filter_congr
        intro x hx
        have hxa : x ≠ a := fun h => hand.1 (h ▸ hx)
        rw [decide_eq_decide]
        simp [hxa]
      rw [hfilter]
      simp

/-- C5 counterexample input: a `pageOrder` containing a duplicated id (such
an order is reachable: reordering `[a, b]` with request `[a, a]` stores
`[a, a, b]`). -/
def dupOrderIndex : Index :=
  { pageOrder := some ["a", "a"], currentPageId := none, folderMap := none,
    categories := none, categoryMap := none, categoryOrder := none,
    categoryChildOrder := none }

/-- C5 counterexample: with current order `[a, a]` and an empty request, the
code stores `[a]` — the append-missing loop checks membership in the growing
result, so duplicated current ids are collapsed — while the claim's formula
(elements of the request in `P`, then elements of `P` missing from the
request, kept in `P`'s order) yields `[a, a]`. -/
theorem reorder_pages_dup_counterexample :
    (reorder_pages [] dupOrderIndex).pageOrder = some ["a"] ∧
    reorder_spec ["a", "a"] [] = ["a", "a"] ∧
    (["a"] : List String) ≠ ["a", "a"] := by
  refine ⟨by decide, by decide, by decide⟩

/-- C5 (amended): `reorder_pages` never loses a page id, and whenever the
current `pageOrder` has no duplicates (always true of orders produced from
duplicate-free states) the stored order is exactly the requested ids that
occur in the current order, in request order, followed by the current ids
missing from the request, in current order. -/
theorem reorder_pages_spec (index : Index) (order : List String) :
    (∀ pid ∈ index.pageOrder.getD [],
      pid ∈ (reorder_pages order index).pageOrder.getD []) ∧
    ((index.pageOrder.getD []).Nodup →
      (reorder_pages order index).pageOrder =
        some (reorder_spec (index.pageOrder.getD []) order)) := by
  constructor
  · intro pid hpid
    exact reorder_fold_preserves _ _ pid (Or.inl hpid)
  · intro hnd
    show some _ = some _
    rw [Option.some.injEq]
    rw [reorder_fold_nodup _ hnd]
    unfold reorder_spec
    have hfilter : (index.pageOrder.getD []).filter
        (fun pid => decide (pid ∉ (order.filter
          (fun pid => decide (pid ∈ index.pageOrder.getD []))))) =
        (index.pageOrder.getD []).filter (fun pid => decide (pid ∉ order)) := by
      apply List.filter_congr
      intro x hx
      rw [decide_eq_decide]
      constructor
      · intro h hxo
        exact h (List.mem_filter.mpr ⟨hxo, by simpa using hx⟩)
      · intro h hxf
        exact h (List.mem_filter.mp hxf).1
    rw [hfilter]

/-- Witness input: current order `[a, b, c]`. -/
def abcOrderIndex : Index :=
  { pageOrder := some ["a", "b", "c"], currentPageId := none, folderMap := none,
    categories := none, categoryMap := none, categoryOrder := none,
    categoryChildOrder := none }

/-- C5 witness: the amended statement at the spec's own example — current
order `[a, b, c]`, request `[c, a]`, result `[c, a, b]`. -/
theorem reorder_pages_spec_witness :
    (["a", "b", "c"] : List String).Nodup ∧
    (reorder_pages ["c", "a"] abcOrderIndex).pageOrder = some ["c", "a", "b"] := by
  refine ⟨by decide, ?_⟩
  have h := (reorder_pages_spec abcOrderIndex ["c", "a"]).2 (by decide)
  rw [h]
  decide

/-! ## Top-level category reordering (backend/routers/categories.py
`reorder_categories`) -/

/-- `reorder_categories(body)` from backend/routers/categories.py: the
requested order is stored wholesale (`index["categoryOrder"] = body.order`)
— there is no UUID validation of its elements, no filtering against known
categories, and no appending of missing ids. -/
def reorder_categories (order : List String) (index : Index) : Index :=
  save_index { index with categoryOrder := some order }

/-- C9 (confirmed): the top-level reorder replaces `categoryOrder` wholesale
with the request, for every request (including ids that are not UUIDs and
ids unknown to the index); consequently any existing top-level id absent
from the request is dropped. -/
theorem reorder_categories_wholesale (index : Index) (order : List String) :
    (reorder_categories order index).categoryOrder = some order ∧
    (∀ cid ∈ index.categoryOrder.getD [], cid ∉ order →
      cid ∉ (reorder_categories order index).categoryOrder.getD []) := by
  refine ⟨rfl, ?_⟩
  intro cid _ h hmem
  exact h (by simpa using hmem)

/-- Witness input for C9: one existing top-level category id "x". -/
def xOrderIndex : Index :=
  { pageOrder := none, currentPageId := none, folderMap := none,
    categories := none, categoryMap := none, categoryOrder := some ["x"],
    categoryChildOrder := none }

/-- C9 witness: replacing the order `["x"]` by `[]` drops "x" — the wholesale
theorem applied at that concrete input. -/
theorem reorder_categories_wholesale_witness :
    (reorder_categories [] xOrderIndex).categoryOrder = some ([] : List String) ∧
    "x" ∈ xOrderIndex.categoryOrder.getD [] ∧
    "x" ∉ (reorder_categories [] xOrderIndex).categoryOrder.getD [] :=
  ⟨(reorder_categories_wholesale xOrderIndex []).1, by decide,
    (reorder_categories_wholesale xOrderIndex []).2 "x" (by decide) (by decide)⟩

/-! ## Moving a page between categories (backend/routers/pages.py
`move_page_to_category`) -/

/-- Filesystem facts consulted by `move_page_to_category`, passed in
explicitly: whether `load_page` finds the page, whether a legacy
`vault/{page_id}` directory exists, whether the two computed paths resolve
inside the vault (`assert_inside_vault`), and whether the moved directory's
`content.json` exists (controls only the URL-rewrite step). -/
structure FsView where
  pageExists : Bool
  legacyDirExists : Bool
  oldPathInsideVault : Bool
  newPathInsideVault : Bool
  contentFileExists : Bool
deriving DecidableEq

/-- Result of `move_page_to_category`: the `moved` flag and, when a physical
move happened, the old and new page-directory paths as segment lists
relative to the vault root (the route's `shutil.move(old, new)`). -/
structure MovePageOutcome where
  moved : Bool
  oldPath : Option (List String)
  newPath : Option (List String)
deriving DecidableEq

/-- Page-directory path (as segments under the vault root) for a given
optional category folder: `vault/{catFolder}/{pageFolder}` or
`vault/{pageFolder}`. -/
def catPath : Option String → String → List String
  | some f, pf => [f, pf]
  | none, pf => [pf]

/-- `move_page_to_category(page_id, body)` from backend/routers/pages.py.
The directory move and the in-place URL rewrite of `content.json` are
filesystem effects reported through `MovePageOutcome`; they read and write
no index state, so the second component is the index as saved to disk. -/
def move_page_to_category (page_id : String) (categoryId : Option String)
    (fs : FsView) (index : Index) : Except HError (MovePageOutcome × Index) :=
  match validate_uuid page_id "페이지 ID" with
  | .error e => .error e
  | .ok _ =>
  match (match categoryId with
         | some c => validate_uuid c "카테고리 ID"
         | none => .ok ()) with
  | .error e => .error e
  | .ok _ =>
  if fs.pageExists = false then .error ⟨404, "페이지를 찾을 수 없습니다"⟩
  else
    let old_cat_id := dictGet (index.categoryMap.getD []) page_id
    let new_cat_id := categoryId
    if old_cat_id = new_cat_id then
      .ok ({ moved := false, oldPath := none, newPath := none }, index)
    else
      let page_folder := get_folder_name page_id index fs.legacyDirExists
      let old_cat_folder := get_category_folder_name old_cat_id index
      let new_cat_folder := get_category_folder_name new_cat_id index
      let old_path := catPath old_cat_folder page_folder
      let new_path := catPath new_cat_folder page_folder
      if fs.oldPathInsideVault = false then .error ⟨400, "잘못된 파일 경로입니다"⟩
      else if fs.newPathInsideVault = false then .error ⟨400, "잘못된 파일 경로입니다"⟩
      else
        let cm := index.categoryMap.getD []
        let cm2 := match new_cat_id with
          | some c => dictSet cm page_id c
          | none => dictRemove cm page_id
        .ok ({ moved := true, oldPath := some old_path, newPath := some new_path },
          save_index { index with categoryMap := some cm2 })

lemma validate_uuid_ok {v : String} (lbl : String)
    (h : pyUUIDMatch v.data = true) : validate_uuid v lbl = Except.ok () := by
  unfold validate_uuid
  rw [if_pos h]

/-- C8 (confirmed): moving a page to a well-formed (UUID-shaped) category id
that does not exist in the index's `categories` still reports success: the
unknown id is recorded in `categoryMap[page_id]`, the category folder
resolves to `none`, and the page directory's new path has no category
segment (the page folder sits directly at the vault root); `categories` is
unchanged, so `categoryMap` thereafter references a nonexistent category. -/
theorem move_page_unknown_category (index : Index) (page_id cid : String)
    (fs : FsView)
    (hpid : pyUUIDMatch page_id.data = true)
    (hcid : pyUUIDMatch cid.data = true)
    (hfs1 : fs.pageExists = true)
    (hfs2 : fs.oldPathInsideVault = true)
    (hfs3 : fs.newPathInsideVault = true)
    (hunknown : ∀ cat ∈ index.categories.getD [], cat.id ≠ cid)
    (hdiff : dictGet (index.categoryMap.getD []) page_id ≠ some cid) :
    ∃ out index2,
      move_page_to_category page_id (some cid) fs index =
        Except.ok (out, index2) ∧
      out.moved = true ∧
      out.newPath = some [get_folder_name page_id index fs.legacyDirExists] ∧
      dictGet (index2.categoryMap.getD []) page_id = some cid ∧
      index2.categories = some (index.categories.getD []) ∧
      (∀ cat ∈ index2.categories.getD [], cat.id ≠ cid) := by
  have hfold : get_category_folder_name (some cid) index = none := by
    show (if cid = "" then none
      else Option.map Category.folderName
        ((index.categories.getD []).find? (fun c => c.id == cid))) = none
    by_cases h0 : cid = ""
    · rw [if_pos h0]
    · rw [if_neg h0]
      rw [List.find?_eq_none.mpr ?_]
      · rfl
      · intro cat hcat
        simpa using hunknown cat hcat
  refine ⟨⟨true,
      some (catPath (get_category_folder_name
        (dictGet (index.categoryMap.getD []) page_id) index)
        (get_folder_name page_id index fs.legacyDirExists)),
      some [get_folder_name page_id index fs.legacyDirExists]⟩,
    save_index { index with categoryMap := some (dictSet (index.categoryMap.getD []) page_id cid) },
    ?_, rfl, rfl, ?_, rfl, ?_⟩
  · unfold move_page_to_category
    simp only [validate_uuid_ok _ hpid, validate_uuid_ok _ hcid, hfs1, hfs2, hfs3,
      hfold, hdiff, Bool.true_eq_false, if_false, ite_false]
    rfl
  · show dictGet (dictSet (index.categoryMap.getD []) page_id cid) page_id = some cid
    rw [dictGet_dictSet, if_pos rfl]
  · intro cat hcat
    exact hunknown cat (by simpa using hcat)

/-- Witness index for C8: one page at the vault root, no categories. -/
def movePageIndex : Index :=
  { pageOrder := some ["11111111-1111-1111-1111-111111111111"],
    currentPageId := none,
    folderMap := some [("11111111-1111-1111-1111-111111111111",
      "MyPage_20240101-0000_11111111")],
    categories := some [], categoryMap := some [], categoryOrder := some [],
    categoryChildOrder := none }

/-- Witness filesystem view for C8: the page exists and both paths resolve
inside the vault. -/
def allFsTrue : FsView := ⟨true, false, true, true, true⟩

/-- C8 witness: the theorem applied at a concrete page and a fresh unknown
category id, every hypothesis evaluated at the concrete input. -/
theorem move_page_unknown_category_witness :
    ∃ out index2,
      move_page_to_category "11111111-1111-1111-1111-111111111111"
        (some "22222222-2222-2222-2222-222222222222") allFsTrue movePageIndex =
        Except.ok (out, index2) ∧
      out.moved = true ∧
      out.newPath = some [get_folder_name "11111111-1111-1111-1111-111111111111"
        movePageIndex allFsTrue.legacyDirExists] ∧
      dictGet (index2.categoryMap.getD [])
        "11111111-1111-1111-1111-111111111111" =
        some "22222222-2222-2222-2222-222222222222" ∧
      index2.categories = some (movePageIndex.categories.getD []) ∧
      (∀ cat ∈ index2.categories.getD [],
        cat.id ≠ "22222222-2222-2222-2222-222222222222") :=
  move_page_unknown_category movePageIndex _ _ allFsTrue (by decide) (by decide)
    rfl rfl rfl (by decide) (by decide)

/-! ## Category deletion (backend/routers/categories.py `delete_category`) -/

/-- Outcome of `delete_category`: the structured refusals
`{ok: False, hasChildren: True, count}` and `{ok: False, hasPages: True,
count}`, or a successful deletion (`{ok: True, hasPages: False}`) which also
removes the directory `vault/{folderName}`. -/
inductive DeleteOutcome where
  | refusedChildren (count : Nat)
  | refusedPages (count : Nat)
  | deleted (folderName : String)
deriving DecidableEq

/-- `delete_category(cat_id)` from backend/routers/categories.py.  Children
are read from `categoryChildOrder` and mapped pages counted from
`categoryMap`; either refusal returns before any index or filesystem
mutation.  On success the category leaves `categories` and `categoryOrder`,
is removed from its parent's child list (the list is dropped when it
empties) and its own child-order key is popped — but, as in the code, those
child-order mutations stick only when the index actually has a
`categoryChildOrder` key (`index.get` hands back a detached default dict
otherwise). -/
def delete_category (cat_id : String) (index : Index) :
    Except HError (DeleteOutcome × Index) :=
  match validate_uuid cat_id "카테고리 ID" with
  | .error e => .error e
  | .ok _ =>
  match (index.categories.getD []).find? (fun c => c.id == cat_id) with
  | none => .error ⟨404, "카테고리를 찾을 수 없습니다"⟩
  | some cat =>
    let children := (dictGet (index.categoryChildOrder.getD []) cat_id).getD []
    if children ≠ [] then Except.ok (.refusedChildren children.length, index)
    else
      let pages_in_cat :=
        (index.categoryMap.getD []).filter (fun p => p.2 == cat_id)
      if pages_in_cat ≠ [] then
        Except.ok (.refusedPages pages_in_cat.length, index)
      else
        let cats2 := (index.categories.getD []).filter (fun c => c.id != cat_id)
        let order2 :=
          (index.categoryOrder.getD []).filter (fun cid => cid != cat_id)
        let childOrder2 : Option (List (String × List String)) :=
          match index.categoryChildOrder with
          | none => none
          | some co =>
            let co1 := match cat.parentId with
              | none => co
              | some pid =>
                if (dictGet co pid).isSome then
                  let l2 := ((dictGet co pid).getD []).filter
                    (fun cid => cid != cat_id)
                  if l2.isEmpty then dictRemove co pid else dictSet co pid l2
                else co
            some (dictRemove co1 cat_id)
        Except.ok (.deleted cat.folderName,
          save_index
            { index with
              categories := some cats2,
              categoryOrder := some order2,
              categoryChildOrder := childOrder2 })

/-- C7 (confirmed): for an existing category (well-formed id), if any child
categories are listed under it in `categoryChildOrder` the call returns the
structured refusal `hasChildren` with their count, and otherwise if any page
maps to it in `categoryMap` the call returns the refusal `hasPages` with
that count — in both cases as a normal return (no exception) carrying the
index unchanged, before any index or directory mutation.  Deletion happens
only when the category has no children and no mapped pages. -/
theorem delete_category_guard (index : Index) (cat_id : String) (cat : Category)
    (huuid : pyUUIDMatch cat_id.data = true)
    (hfind : (index.categories.getD []).find? (fun c => c.id == cat_id) =
      some cat) :
    (((dictGet (index.categoryChildOrder.getD []) cat_id).getD []) ≠ [] →
      delete_category cat_id index = Except.ok
        (DeleteOutcome.refusedChildren
          ((dictGet (index.categoryChildOrder.getD []) cat_id).getD []).length,
         index)) ∧
    (((dictGet (index.categoryChildOrder.getD []) cat_id).getD []) = [] →
      (index.categoryMap.getD []).filter (fun p => p.2 == cat_id) ≠ [] →
      delete_category cat_id index = Except.ok
        (DeleteOutcome.refusedPages
          ((index.categoryMap.getD []).filter (fun p => p.2 == cat_id)).length,
         index)) ∧
    (∀ fn index2, delete_category cat_id index =
        Except.ok (DeleteOutcome.deleted fn, index2) →
      ((dictGet (index.categoryChildOrder.getD []) cat_id).getD []) = [] ∧
      (index.categoryMap.getD []).filter (fun p => p.2 == cat_id) = []) := by
  refine ⟨?_, ?_, ?_⟩
  · intro hch
    unfold delete_category
    simp only [validate_uuid_ok _ huuid, hfind]
    rw [if_pos hch]
  · intro hch hpg
    unfold delete_category
    simp only [validate_uuid_ok _ huuid, hfind]
    rw [if_neg (fun hne => hne hch), if_pos hpg]
  · intro fn index2 heq
    by_cases hch : ((dictGet (index.categoryChildOrder.getD []) cat_id).getD [])
      = []
    · by_cases hpg : (index.categoryMap.getD []).filter (fun p => p.2 == cat_id)
        = []
      · exact ⟨hch, hpg⟩
      · unfold delete_category at heq
        simp only [validate_uuid_ok _ huuid, hfind] at heq
        rw [if_neg (fun hne => hne hch), if_pos hpg] at heq
        cases heq
    · unfold delete_category at heq
      simp only [validate_uuid_ok _ huuid, hfind] at heq
      rw [if_pos hch] at heq
      cases heq

/-- Witness index for C7: one category with a single page mapped to it. -/
def deleteGuardIndex : Index :=
  { pageOrder := some [], currentPageId := none, folderMap := some [],
    categories := some [⟨"cccccccc-cccc-cccc-cccc-cccccccccccc", "Work",
      "Work", none⟩],
    categoryMap := some [("11111111-1111-1111-1111-111111111111",
      "cccccccc-cccc-cccc-cccc-cccccccccccc")],
    categoryOrder := some ["cccccccc-cccc-cccc-cccc-cccccccccccc"],
    categoryChildOrder := none }

/-- C7 witness: a category with one mapped page refuses deletion with
`hasPages` and count 1, the index coming back unchanged — the guard theorem
applied at that concrete input. -/
theorem delete_category_guard_witness :
    delete_category "cccccccc-cccc-cccc-cccc-cccccccccccc" deleteGuardIndex =
      Except.ok (DeleteOutcome.refusedPages 1, deleteGuardIndex) := by
  have h := (delete_category_guard deleteGuardIndex
    "cccccccc-cccc-cccc-cccc-cccccccccccc"
    ⟨"cccccccc-cccc-cccc-cccc-cccccccccccc", "Work", "Work", none⟩
    (by decide) (by decide)).2.1 (by decide) (by decide)
  rw [h]
  rfl

/-! ## Category tree operations (backend/routers/categories.py
`create_category`, `rename_category`, `move_category`, `reorder_children`)
and the child-order graph -/

/-- `child_order.get(x, [])`: the ordered child list of a node of the
`categoryChildOrder` graph. -/
def coGet (co : List (String × List String)) (a : String) : List String :=
  (dictGet co a).getD []

/-- One edge of the `categoryChildOrder` graph: `c` is a child of `p`. -/
def coStep (co : List (String × List String)) (p c : String) : Prop :=
  c ∈ coGet co p

/-- The `categoryChildOrder` graph is acyclic: descending through child
lists always terminates (every node is accessible along the
child-of relation), so no category is its own descendant. -/
def AcyclicCO (co : List (String × List String)) : Prop :=
  ∀ a, Acc (fun c p => coStep co p c) a

/-- The cycle-check loop of `move_category`:
`queue = list(child_order.get(cat_id, [])); while queue: d = queue.pop();
if d == parent: raise; queue.extend(child_order.get(d, []))`.
The stack here is the reverse of the Python queue, so `pop()` (the queue's
last element) is the head and `extend(children)` prepends the reversed
child list.  `fuel` counts loop iterations: `none` means the bound was
exhausted (the Python loop would still be running), `some found` is the
loop's verdict. -/
def findDescendant (co : List (String × List String)) (target : String) :
    Nat → List String → Option Bool
  | _, [] => some false
  | 0, _ :: _ => none
  | fuel + 1, d :: rest =>
    if d = target then some true
    else findDescendant co target fuel ((coGet co d).reverse ++ rest)

/-- Python's in-place mutation of the object found in a list: replace the
first element satisfying `p`. -/
def replaceFirst {α : Type} (p : α → Bool) (v : α) : List α → List α
  | [] => []
  | x :: xs => if p x then v :: xs else x :: replaceFirst p v xs

/-- Removing `cat_id` from `child_order[parent]` as `move_category` and
`delete_category` do: only when the key exists; the filtered list is stored
back, or the key is deleted when the list empties. -/
def coRemoveChild (co : List (String × List String)) (parent cat_id : String) :
    List (String × List String) :=
  if (dictGet co parent).isSome then
    let l2 := (coGet co parent).filter (fun cid => cid != cat_id)
    if l2.isEmpty then dictRemove co parent else dictSet co parent l2
  else co

/-- `child_order.setdefault(parent, []).append(cat_id)`. -/
def coAppendChild (co : List (String × List String)) (parent cat_id : String) :
    List (String × List String) :=
  dictSet co parent (coGet co parent ++ [cat_id])

/-- The folder-name disambiguation loop
(`while folder_name in existing: folder_name = f"{base}_{counter}"; counter += 1`):
the first name among `base, base_2, base_3, …` that is not taken.  The
candidate list has one more element than `existing`, and the candidates are
pairwise distinct, so a free name always exists within it and the `getD`
fallback is never reached. -/
def freeFolderName (base : String) (existing : List String) : String :=
  ((base :: (List.range (existing.length + 1)).map
    (fun i => base ++ "_" ++ toString (i + 2))).find?
    (fun nm => decide (nm ∉ existing))).getD base

/-- `create_category(body)` from backend/routers/categories.py.  The
generated `uuid.uuid4()` is the parameter `new_id`; the physical `mkdir` of
`vault/{folder_name}` is a filesystem effect outside the index. -/
def create_category (new_id : String) (name : String) (parentId : Option String)
    (index : Index) : Except HError (Category × Index) :=
  match (match parentId with
         | some p => validate_uuid p "부모 카테고리 ID"
         | none => Except.ok ()) with
  | .error e => .error e
  | .ok _ =>
  match ((match parentId with
         | some p =>
           if ((index.categories.getD []).find? (fun c => c.id == p)).isSome
           then Except.ok ()
           else Except.error ⟨404, "부모 카테고리를 찾을 수 없습니다"⟩
         | none => Except.ok ()) : Except HError Unit) with
  | .error e => .error e
  | .ok _ =>
    let folder_name := freeFolderName (sanitize_category_name name)
      ((index.categories.getD []).map Category.folderName)
    let cat : Category := ⟨new_id, name, folder_name, parentId⟩
    match parentId with
    | none => Except.ok (cat, save_index
        { index with
          categories := some ((index.categories.getD []) ++ [cat]),
          categoryOrder := some ((index.categoryOrder.getD []) ++ [new_id]) })
    | some p => Except.ok (cat, save_index
        { index with
          categories := some ((index.categories.getD []) ++ [cat]),
          categoryChildOrder := some (coAppendChild
            (index.categoryChildOrder.getD []) p new_id) })

/-- `rename_category(cat_id, body)` from backend/routers/categories.py: the
display name always changes; the folder name is re-sanitised and
disambiguated against the other categories.  The physical directory rename
and the per-page asset-URL rewrite touch no index state beyond the category
record. -/
def rename_category (cat_id : String) (newName : String) (index : Index) :
    Except HError (Category × Index) :=
  match validate_uuid cat_id "카테고리 ID" with
  | .error e => .error e
  | .ok _ =>
  match (index.categories.getD []).find? (fun c => c.id == cat_id) with
  | none => .error ⟨404, "카테고리를 찾을 수 없습니다"⟩
  | some cat =>
    let new_folder := freeFolderName (sanitize_category_name newName)
      (((index.categories.getD []).filter (fun c => c.id != cat_id)).map
        Category.folderName)
    let cat2 := { cat with name := newName, folderName := new_folder }
    Except.ok (cat2, save_index { index with
      categories := some (replaceFirst (fun c => c.id == cat_id) cat2
        (index.categories.getD [])) })

/-- The tail of `move_category`, after its checks have passed: no-op when
the parent is unchanged (returned without saving), else the category is
removed from its old parent's list (or the top-level order), appended to the
new parent's list (or the top-level order), and its `parentId` is updated. -/
def move_category_commit (cat_id : String) (parentId : Option String)
    (cat : Category) (index : Index) : Except HError Index × Index :=
  if cat.parentId = parentId then (Except.ok index, index)
  else
    let co := index.categoryChildOrder.getD []
    let co1 := match cat.parentId with
      | none => co
      | some q => coRemoveChild co q cat_id
    let order1 := match cat.parentId with
      | none => (index.categoryOrder.getD []).filter (fun cid => cid != cat_id)
      | some _ => index.categoryOrder.getD []
    let co2 := match parentId with
      | none => co1
      | some p => coAppendChild co1 p cat_id
    let order2 := match parentId with
      | none => order1 ++ [cat_id]
      | some _ => order1
    let index2 := save_index
      { index with
        categories := some (replaceFirst (fun c => c.id == cat_id)
          { cat with parentId := parentId } (index.categories.getD [])),
        categoryOrder := some order2,
        categoryChildOrder := some co2 }
    (Except.ok index2, index2)

/-- `move_category(cat_id, body)` from backend/routers/categories.py.  The
second component of the result is the index on disk after the request: every
`raise` happens before any mutation, so on an error it is the input index.
`none` models fuel exhaustion of the (unguarded) cycle-check loop. -/
def move_category (fuel : Nat) (cat_id : String) (parentId : Option String)
    (index : Index) : Option (Except HError Index × Index) :=
  match validate_uuid cat_id "카테고리 ID" with
  | .error e => some (.error e, index)
  | .ok _ =>
  match (match parentId with
         | some p => validate_uuid p "대상 부모 카테고리 ID"
         | none => Except.ok ()) with
  | .error e => some (.error e, index)
  | .ok _ =>
  match (index.categories.getD []).find? (fun c => c.id == cat_id) with
  | none => some (.error ⟨404, "카테고리를 찾을 수 없습니다"⟩, index)
  | some cat =>
  if parentId = some cat_id then
    some (.error ⟨400, "자기 자신의 자식으로 이동할 수 없습니다"⟩, index)
  else
    match parentId with
    | some p =>
      match findDescendant (index.categoryChildOrder.getD []) p fuel
          ((coGet (index.categoryChildOrder.getD []) cat_id).reverse) with
      | none => none
      | some true =>
        some (.error ⟨400, "폴더의 하위 폴더로 이동할 수 없습니다"⟩, index)
      | some false =>
        match (index.categories.getD []).find? (fun c => c.id == p) with
        | none => some (.error ⟨404, "대상 부모 카테고리를 찾을 수 없습니다"⟩, index)
        | some _ => some (move_category_commit cat_id (some p) cat index)
    | none => some (move_category_commit cat_id none cat index)

/-- `reorder_children(parent_id, body)` from backend/routers/categories.py:
after UUID validation and a parent-existence check, the parent's child list
is replaced wholesale with the request — no validation of the ids inside. -/
def reorder_children (parent_id : String) (order : List String) (index : Index) :
    Except HError Index :=
  match validate_uuid parent_id "부모 카테고리 ID" with
  | .error e => .error e
  | .ok _ =>
  match (index.categories.getD []).find? (fun c => c.id == parent_id) with
  | none => .error ⟨404, "부모 카테고리를 찾을 수 없습니다"⟩
  | some _ =>
    Except.ok (save_index
      { index with
        categoryChildOrder := some (dictSet
          (index.categoryChildOrder.getD []) parent_id order) })

lemma findDescendant_sound {co : List (String × List String)} {t : String} :
    ∀ {fuel : Nat} {s : List String},
      findDescendant co t fuel s = some true →
      ∃ x ∈ s, Relation.ReflTransGen (coStep co) x t := by
  intro fuel
  induction fuel with
  | zero =>
    intro s h
    cases s with
    | nil => cases h
    | cons d rest => cases h
  | succ fuel ih =>
    intro s h
    cases s with
    | nil => cases h
    | cons d rest =>
      rw [findDescendant] at h
      by_cases hd : d = t
      · exact ⟨d, List.mem_cons_self _ _, hd ▸ Relation.ReflTransGen.refl⟩
      · rw [if_neg hd] at h
        obtain ⟨x, hx, hreach⟩ := ih h
        rcases List.mem_append.mp hx with hx1 | hx2
        · refine ⟨d, List.mem_cons_self _ _, ?_⟩
          exact Relation.ReflTransGen.head (List.mem_reverse.mp hx1) hreach
        · exact ⟨x, List.mem_cons_of_mem _ hx2, hreach⟩

lemma findDescendant_complete_neg {co : List (String × List String)}
    {t : String} : ∀ {fuel : Nat} {s : List String},
      findDescendant co t fuel s = some false →
      ∀ x ∈ s, ¬ Relation.ReflTransGen (coStep co) x t := by
  intro fuel
  induction fuel with
  | zero =>
    intro s h x hx
    cases s with
    | nil => simp at hx
    | cons d rest => cases h
  | succ fuel ih =>
    intro s h x hx
    cases s with
    | nil => simp at hx
    | cons d rest =>
      rw [findDescendant] at h
      by_cases hd : d = t
      · rw [if_pos hd] at h; cases h
      · rw [if_neg hd] at h
        rcases List.mem_cons.mp hx with rfl | hx2
        · intro hreach
          rcases Relation.ReflTransGen.cases_head hreach with rfl | ⟨c, hstep, hc⟩
          · exact hd rfl
          · exact ih h c (List.mem_append_left _
              (List.mem_reverse.mpr hstep)) hc
        · exact ih h x (List.mem_append_right _ hx2)

lemma findDescendant_terminates {co : List (String × List String)} {t : String}
    (hacy : AcyclicCO co) :
    ∀ s : List String, ∃ fuel, findDescendant co t fuel s ≠ none := by
  have hstep : ∀ d : String, Acc (fun c p => coStep co p c) d →
      ∀ rest, (∃ f, findDescendant co t f rest ≠ none) →
      ∃ f, findDescendant co t f (d :: rest) ≠ none := by
    intro d hacc
    induction hacc with
    | intro d hpred ih =>
      intro rest hrest
      by_cases hd : d = t
      · refine ⟨1, ?_⟩
        rw [findDescendant, if_pos hd]
        simp
      · have hext : ∀ cs : List String, (∀ c ∈ cs, coStep co d c) →
            ∀ r0 : List String, (∃ f, findDescendant co t f r0 ≠ none) →
            ∃ f, findDescendant co t f (cs ++ r0) ≠ none := by
          intro cs
          induction cs with
          | nil => intro _ r0 h0; simpa using h0
          | cons c cs ihcs =>
            intro hcs r0 h0
            have h1 := ihcs (fun x hx => hcs x (List.mem_cons_of_mem _ hx)) r0 h0
            have h2 := ih c (hcs c (List.mem_cons_self _ _)) (cs ++ r0) h1
            simpa using h2
        have h3 := hext (coGet co d).reverse
          (fun c hc => List.mem_reverse.mp hc) rest hrest
        obtain ⟨f0, hf0⟩ := h3
        refine ⟨f0 + 1, ?_⟩
        rw [findDescendant, if_neg hd]
        exact hf0
  intro s
  have hall : ∀ s2 : List String, (∃ f, findDescendant co t f ([] : List String) ≠ none) →
      ∃ f, findDescendant co t f (s2 ++ []) ≠ none := by
    intro s2
    induction s2 with
    | nil => intro h; simpa using h
    | cons d s2 ihs =>
      intro h0
      have h1 := ihs h0
      have h2 := hstep d (hacy d) (s2 ++ []) h1
      simpa using h2
  have h0 : ∃ f, findDescendant co t f ([] : List String) ≠ none :=
    ⟨0, by rw [findDescendant]; simp⟩
  have := hall s h0
  simpa using this

lemma findDescendant_finds {co : List (String × List String)} {t : String}
    (hacy : AcyclicCO co) {s : List String}
    (hreach : ∃ x ∈ s, Relation.ReflTransGen (coStep co) x t) :
    ∃ fuel, findDescendant co t fuel s = some true := by
  obtain ⟨f, hf⟩ := findDescendant_terminates hacy (t := t) s
  cases hres : findDescendant co t f s with
  | none => exact absurd hres hf
  | some b =>
    cases b with
    | true => exact ⟨f, hres⟩
    | false =>
      obtain ⟨x, hx, hr⟩ := hreach
      exact absurd hr (findDescendant_complete_neg hres x hx)

lemma coGet_dictSet (co : List (String × List String)) (k : String)
    (v : List String) (x : String) :
    coGet (dictSet co k v) x = if x = k then v else coGet co x := by
  unfold coGet
  rw [dictGet_dictSet]
  split
  · rfl
  · rfl

lemma coGet_dictRemove (co : List (String × List String)) (k x : String) :
    coGet (dictRemove co k) x = if x = k then [] else coGet co x := by
  unfold coGet
  rw [dictGet_dictRemove]
  split
  · rfl
  · rfl

lemma coGet_coAppendChild (co : List (String × List String))
    (parent cat x : String) :
    coGet (coAppendChild co parent cat) x =
      if x = parent then coGet co parent ++ [cat] else coGet co x := by
  unfold coAppendChild
  rw [coGet_dictSet]

lemma coGet_coRemoveChild (co : List (String × List String))
    (parent cat x : String) :
    coGet (coRemoveChild co parent cat) x =
      if x = parent then (coGet co parent).filter (fun cid => cid != cat)
      else coGet co x := by
  unfold coRemoveChild
  by_cases hp : (dictGet co parent).isSome
  · rw [if_pos hp]
    by_cases hemp : ((coGet co parent).filter (fun cid => cid != cat)).isEmpty
    · rw [if_pos hemp, coGet_dictRemove]
      split
      · have := List.isEmpty_iff.mp hemp
        exact this.symm
      · rfl
    · rw [if_neg hemp, coGet_dictSet]
  · rw [if_neg hp]
    split
    · next hx =>
      subst hx
      have : coGet co x = [] := by
        unfold coGet
        cases hd : dictGet co x with
        | none => rfl
        | some w => rw [hd] at hp; simp at hp
      rw [this]
      rfl
    · rfl

lemma acyclic_of_sub {co1 co2 : List (String × List String)}
    (hsub : ∀ p c, coStep co2 p c → coStep co1 p c)
    (hacy : AcyclicCO co1) : AcyclicCO co2 := by
  intro a
  have h := hacy a
  induction h with
  | intro x hx ih =>
    exact Acc.intro x (fun c hc => ih c (hsub x c hc))

lemma acyclic_nil : AcyclicCO ([] : List (String × List String)) := by
  intro a
  refine Acc.intro a (fun c hc => ?_)
  simp [coStep, coGet, dictGet] at hc

lemma no_acc_of_self {r : String → String → Prop} {a : String} (hr : r a a) :
    ¬ Acc r a := by
  intro h
  have key : ∀ x, Acc r x → x = a → False := by
    intro x hx
    induction hx with
    | intro x hpred ih =>
      intro hxa
      exact ih a (by rw [hxa]; exact hr) rfl
  exact key a h rfl

/-- Adding the single edge `v → u` (u becomes a child of v) to an acyclic
child-order graph keeps it acyclic, provided `v` is not reachable downward
from `u` in the extended graph. -/
lemma acyclic_add_edge {co co2 : List (String × List String)} (u v : String)
    (hsub : ∀ p c, coStep co2 p c → coStep co p c ∨ (p = v ∧ c = u))
    (hacy : AcyclicCO co)
    (hnr : ¬ Relation.ReflTransGen (coStep co2) u v) :
    AcyclicCO co2 := by
  have inner : ∀ x, Acc (fun c p => coStep co p c) x →
      Relation.ReflTransGen (coStep co2) u x →
      Acc (fun c p => coStep co2 p c) x := by
    intro x hx
    induction hx with
    | intro x hpred ih =>
      intro hux
      refine Acc.intro x (fun c hc => ?_)
      rcases hsub x c hc with h1 | ⟨rfl, rfl⟩
      · exact ih c h1 (hux.tail hc)
      · exact absurd hux hnr
  intro a
  have h := hacy a
  induction h with
  | intro x hpred ih =>
    refine Acc.intro x (fun c hc => ?_)
    rcases hsub x c hc with h1 | ⟨rfl, rfl⟩
    · exact ih c h1
    · exact inner c (hacy c) Relation.ReflTransGen.refl

/-- A downward path that ends at `b` and whose edges from nodes other than
`b` exist in a second graph also exists there. -/
lemma reflTransGen_transfer {g2 g1 : List (String × List String)} {b : String}
    (hsub : ∀ x y, x ≠ b → coStep g2 x y → coStep g1 x y) :
    ∀ {a : String}, Relation.ReflTransGen (coStep g2) a b →
      Relation.ReflTransGen (coStep g1) a b := by
  intro a h
  induction h using Relation.ReflTransGen.head_induction_on with
  | refl => exact Relation.ReflTransGen.refl
  | head hstep _ ih =>
    next x c _ =>
      by_cases hx : x = b
      · exact hx ▸ Relation.ReflTransGen.refl
      · exact Relation.ReflTransGen.head (hsub x c hx hstep) ih

lemma coStep_coRemoveChild_sub {co : List (String × List String)}
    {parent cat_id : String} {p c : String}
    (h : coStep (coRemoveChild co parent cat_id) p c) : coStep co p c := by
  unfold coStep at h ⊢
  rw [coGet_coRemoveChild] at h
  split at h
  · next hp =>
    subst hp
    exact List.mem_of_mem_filter h
  · exact h

lemma coStep_co1_sub {co : List (String × List String)} {cat_id : String}
    {pid : Option String} {p c : String}
    (h : coStep (match pid with
      | none => co
      | some q => coRemoveChild co q cat_id) p c) : coStep co p c := by
  cases pid with
  | none => exact h
  | some q => exact coStep_coRemoveChild_sub h

lemma move_commit_some_preserves {cat_id pp : String} {cat : Category}
    {index index2 : Index} {r : Except HError Index}
    (hacy : AcyclicCO (index.categoryChildOrder.getD []))
    (hnp : ¬ Relation.ReflTransGen (coStep (index.categoryChildOrder.getD []))
      cat_id pp)
    (h : move_category_commit cat_id (some pp) cat index = (r, index2)) :
    AcyclicCO (index2.categoryChildOrder.getD []) := by
  unfold move_category_commit at h
  split at h
  · simp only [Prod.mk.injEq] at h
    rw [← h.2]
    exact hacy
  · simp only [Prod.mk.injEq] at h
    rw [← h.2]
    show AcyclicCO (coAppendChild (match cat.parentId with
      | none => index.categoryChildOrder.getD []
      | some q => coRemoveChild (index.categoryChildOrder.getD []) q cat_id)
      pp cat_id)
    refine acyclic_add_edge cat_id pp ?_ hacy ?_
    · intro q c hqc
      unfold coStep at hqc
      rw [coGet_coAppendChild] at hqc
      split at hqc
      · next hq =>
        subst hq
        rcases List.mem_append.mp hqc with h1 | h2
        · exact Or.inl (coStep_co1_sub h1)
        · simp only [List.mem_singleton] at h2
          exact Or.inr ⟨rfl, h2⟩
      · exact Or.inl (coStep_co1_sub hqc)
    · intro hr
      refine hnp (reflTransGen_transfer ?_ hr)
      intro x y hx hxy
      unfold coStep at hxy ⊢
      rw [coGet_coAppendChild, if_neg hx] at hxy
      exact coStep_co1_sub hxy

lemma move_commit_none_preserves {cat_id : String} {cat : Category}
    {index index2 : Index} {r : Except HError Index}
    (hacy : AcyclicCO (index.categoryChildOrder.getD []))
    (h : move_category_commit cat_id none cat index = (r, index2)) :
    AcyclicCO (index2.categoryChildOrder.getD []) := by
  unfold move_category_commit at h
  split at h
  · simp only [Prod.mk.injEq] at h
    rw [← h.2]
    exact hacy
  · simp only [Prod.mk.injEq] at h
    rw [← h.2]
    show AcyclicCO (match cat.parentId with
      | none => index.categoryChildOrder.getD []
      | some q => coRemoveChild (index.categoryChildOrder.getD []) q cat_id)
    exact acyclic_of_sub (fun p c h => coStep_co1_sub h) hacy

lemma move_preserves_acyclic {fuel : Nat} {cat_id : String}
    {parentId : Option String} {index index2 : Index} {r : Except HError Index}
    (h : move_category fuel cat_id parentId index = some (r, index2))
    (hacy : AcyclicCO (index.categoryChildOrder.getD [])) :
    AcyclicCO (index2.categoryChildOrder.getD []) := by
  unfold move_category at h
  split at h
  · simp only [Option.some.injEq, Prod.mk.injEq] at h
    rw [← h.2]; exact hacy
  · split at h
    · simp only [Option.some.injEq, Prod.mk.injEq] at h
      rw [← h.2]; exact hacy
    · split at h
      · simp only [Option.some.injEq, Prod.mk.injEq] at h
        rw [← h.2]; exact hacy
      · split at h
        · simp only [Option.some.injEq, Prod.mk.injEq] at h
          rw [← h.2]; exact hacy
        · next hself =>
          split at h
          · next p hpid =>
            split at h
            · cases h
            · simp only [Option.some.injEq, Prod.mk.injEq] at h
              rw [← h.2]; exact hacy
            · next hfd =>
              split at h
              · simp only [Option.some.injEq, Prod.mk.injEq] at h
                rw [← h.2]; exact hacy
              · rw [Option.some.injEq] at h
                refine move_commit_some_preserves hacy ?_ h
                intro hr
                rcases Relation.ReflTransGen.cases_head hr with heq | ⟨c, hstep, hc⟩
                · exact hself (by rw [heq])
                · exact findDescendant_complete_neg hfd c
                    (List.mem_reverse.mpr hstep) hc
          · rw [Option.some.injEq] at h
            exact move_commit_none_preserves hacy h

lemma delete_preserves_acyclic {cat_id : String} {out : DeleteOutcome}
    {index index2 : Index}
    (h : delete_category cat_id index = Except.ok (out, index2))
    (hacy : AcyclicCO (index.categoryChildOrder.getD [])) :
    AcyclicCO (index2.categoryChildOrder.getD []) := by
  unfold delete_category at h
  simp only [] at h
  split at h
  · cases h
  · split at h
    · cases h
    · split at h
      · simp only [Except.ok.injEq, Prod.mk.injEq] at h
        rw [← h.2]; exact hacy
      · split at h
        · simp only [Except.ok.injEq, Prod.mk.injEq] at h
          rw [← h.2]; exact hacy
        · split at h
          · simp only [Except.ok.injEq, Prod.mk.injEq] at h
            rw [← h.2]
            exact acyclic_nil
          · next co heq =>
            simp only [Except.ok.injEq, Prod.mk.injEq] at h
            rw [← h.2]
            simp only [save_index, Option.getD_some]
            rw [heq] at hacy
            refine acyclic_of_sub ?_ (show AcyclicCO co from hacy)
            intro p c hpc
            unfold coStep at hpc ⊢
            rw [coGet_dictRemove] at hpc
            split at hpc
            · simp at hpc
            · split at hpc
              · exact hpc
              · split at hpc
                · split at hpc
                  · unfold coGet at hpc ⊢
                    rw [dictGet_dictRemove] at hpc
                    split at hpc
                    · simp at hpc
                    · exact hpc
                  · unfold coGet at hpc ⊢
                    rw [dictGet_dictSet] at hpc
                    split at hpc
                    · next hpp =>
                      subst hpp
                      exact List.mem_of_mem_filter hpc
                    · exact hpc
                · exact hpc

lemma create_preserves_acyclic {new_id name : String} {parentId : Option String}
    {cat : Category} {index index2 : Index}
    (hfresh : dictGet (index.categoryChildOrder.getD []) new_id = none)
    (hne : parentId ≠ some new_id)
    (h : create_category new_id name parentId index = Except.ok (cat, index2))
    (hacy : AcyclicCO (index.categoryChildOrder.getD [])) :
    AcyclicCO (index2.categoryChildOrder.getD []) := by
  cases parentId with
  | none =>
    unfold create_category at h
    simp only [] at h
    simp only [Except.ok.injEq, Prod.mk.injEq] at h
    rw [← h.2]
    exact hacy
  | some cid =>
    unfold create_category at h
    simp only [] at h
    split at h
    · cases h
    · split at h
      · cases h
      · simp only [Except.ok.injEq, Prod.mk.injEq] at h
        rw [← h.2]
        simp only [save_index, Option.getD_some]
        refine acyclic_add_edge new_id cid ?_ hacy ?_
        · intro q c hqc
          unfold coStep at hqc
          rw [coGet_coAppendChild] at hqc
          split at hqc
          · next hq =>
            subst hq
            rcases List.mem_append.mp hqc with h1 | h2
            · exact Or.inl h1
            · simp only [List.mem_singleton] at h2
              exact Or.inr ⟨rfl, h2⟩
          · exact Or.inl hqc
        · intro hr
          rcases Relation.ReflTransGen.cases_head hr with heq | ⟨c, hstep, _⟩
          · exact hne (by rw [heq])
          · unfold coStep at hstep
            rw [coGet_coAppendChild] at hstep
            have hnid : new_id ≠ cid := fun hh => hne (by rw [hh])
            rw [if_neg hnid] at hstep
            unfold coGet at hstep
            rw [hfresh] at hstep
            simp at hstep

lemma rename_preserves_acyclic {cat_id newName : String} {cat : Category}
    {index index2 : Index}
    (h : rename_category cat_id newName index = Except.ok (cat, index2))
    (hacy : AcyclicCO (index.categoryChildOrder.getD [])) :
    AcyclicCO (index2.categoryChildOrder.getD []) := by
  unfold rename_category at h
  simp only [] at h
  split at h
  · cases h
  · split at h
    · cases h
    · simp only [Except.ok.injEq, Prod.mk.injEq] at h
      rw [← h.2]
      exact hacy

lemma reorder_categories_preserves_acyclic {order : List String} {index : Index}
    (hacy : AcyclicCO (index.categoryChildOrder.getD [])) :
    AcyclicCO ((reorder_categories order index).categoryChildOrder.getD []) :=
  hacy

lemma move_category_bad_parent_errors {fuel : Nat} {cat_id p : String}
    {index : Index} {r : Except HError Index} {st : Index}
    (hbad : p = cat_id ∨
      Relation.TransGen (coStep (index.categoryChildOrder.getD [])) cat_id p)
    (h : move_category fuel cat_id (some p) index = some (r, st)) :
    (∃ e, r = Except.error e) ∧ st = index := by
  unfold move_category at h
  simp only [] at h
  split at h
  · next e _ =>
    simp only [Option.some.injEq, Prod.mk.injEq] at h
    exact ⟨⟨e, h.1.symm⟩, h.2.symm⟩
  · split at h
    · next e _ =>
      simp only [Option.some.injEq, Prod.mk.injEq] at h
      exact ⟨⟨e, h.1.symm⟩, h.2.symm⟩
    · split at h
      · simp only [Option.some.injEq, Prod.mk.injEq] at h
        exact ⟨⟨_, h.1.symm⟩, h.2.symm⟩
      · split at h
        · simp only [Option.some.injEq, Prod.mk.injEq] at h
          exact ⟨⟨_, h.1.symm⟩, h.2.symm⟩
        · next hself =>
          split at h
          · cases h
          · simp only [Option.some.injEq, Prod.mk.injEq] at h
            exact ⟨⟨_, h.1.symm⟩, h.2.symm⟩
          · next hfd =>
            exfalso
            rcases hbad with hbad | hbad
            · exact hself (by rw [hbad])
            · rcases Relation.TransGen.head'_iff.mp hbad with ⟨c, hstep, hc⟩
              exact findDescendant_complete_neg hfd c
                (List.mem_reverse.mpr hstep) hc

lemma move_category_bad_parent_raises {cat_id p : String} {index : Index}
    (hacy : AcyclicCO (index.categoryChildOrder.getD []))
    (hbad : p = cat_id ∨
      Relation.TransGen (coStep (index.categoryChildOrder.getD [])) cat_id p) :
    ∃ fuel e, move_category fuel cat_id (some p) index =
      some (Except.error e, index) := by
  cases hv1 : validate_uuid cat_id "카테고리 ID" with
  | error e =>
    refine ⟨0, e, ?_⟩
    unfold move_category
    simp [hv1]
  | ok u =>
    cases hv2 : validate_uuid p "대상 부모 카테고리 ID" with
    | error e =>
      refine ⟨0, e, ?_⟩
      unfold move_category
      simp [hv1, hv2]
    | ok u2 =>
      cases hfind : (index.categories.getD []).find? (fun c => c.id == cat_id)
        with
      | none =>
        refine ⟨0, ⟨404, "카테고리를 찾을 수 없습니다"⟩, ?_⟩
        unfold move_category
        simp [hv1, hv2, hfind]
      | some cat =>
        by_cases hself : p = cat_id
        · subst hself
          refine ⟨0, ⟨400, "자기 자신의 자식으로 이동할 수 없습니다"⟩, ?_⟩
          unfold move_category
          simp [hv1, hv2, hfind]
        · have hdesc := hbad.resolve_left hself
          obtain ⟨c, hstep, hc⟩ := Relation.TransGen.head'_iff.mp hdesc
          obtain ⟨fuel, hfd⟩ := findDescendant_finds hacy
            ⟨c, List.mem_reverse.mpr hstep, hc⟩
          refine ⟨fuel, ⟨400, "폴더의 하위 폴더로 이동할 수 없습니다"⟩, ?_⟩
          unfold move_category
          simp [hv1, hv2, hfind, hfd, hself]

/-- One category operation processed by the categories router, except
`reorder_children`: a create (its fresh `uuid4` modelled by the freshness
hypotheses), a rename, a delete (refusals included), a move with any
outcome (errors leave the index unchanged), or a top-level reorder. -/
inductive CatStep : Index → Index → Prop
  | create (new_id name : String) (parentId : Option String) (cat : Category)
      (index index2 : Index)
      (hfresh : dictGet (index.categoryChildOrder.getD []) new_id = none)
      (hne : parentId ≠ some new_id)
      (h : create_category new_id name parentId index = Except.ok (cat, index2)) :
      CatStep index index2
  | rename (cat_id newName : String) (cat : Category) (index index2 : Index)
      (h : rename_category cat_id newName index = Except.ok (cat, index2)) :
      CatStep index index2
  | delete (cat_id : String) (out : DeleteOutcome) (index index2 : Index)
      (h : delete_category cat_id index = Except.ok (out, index2)) :
      CatStep index index2
  | move (fuel : Nat) (cat_id : String) (parentId : Option String)
      (r : Except HError Index) (index index2 : Index)
      (h : move_category fuel cat_id parentId index = some (r, index2)) :
      CatStep index index2
  | reorderTop (order : List String) (index : Index) :
      CatStep index (reorder_categories order index)

lemma catStep_preserves_acyclic {i1 i2 : Index} (h : CatStep i1 i2)
    (hacy : AcyclicCO (i1.categoryChildOrder.getD [])) :
    AcyclicCO (i2.categoryChildOrder.getD []) := by
  cases h with
  | create new_id name parentId cat index index2 hfresh hne h =>
    exact create_preserves_acyclic hfresh hne h hacy
  | rename cat_id newName cat index index2 h =>
    exact rename_preserves_acyclic h hacy
  | delete cat_id out index index2 h =>
    exact delete_preserves_acyclic h hacy
  | move fuel cat_id parentId r index index2 h =>
    cases r with
    | ok idx =>
      exact move_preserves_acyclic h hacy
    | error e =>
      exact move_preserves_acyclic h hacy
  | reorderTop order index =>
    exact reorder_categories_preserves_acyclic hacy

/-- C6 (amended): for every index whose `categoryChildOrder` is acyclic,
`move_category` requesting a new parent equal to the moved category itself
or to any of its descendants raises an HTTP error and leaves the saved index
unchanged — some fuel makes the cycle-check loop terminate with that error,
and no amount of fuel can produce anything but an error with the original
index.  Moreover any sequence of category operations other than
`reorder_children` (create, rename, delete, move, top-level reorder)
preserves acyclicity of `categoryChildOrder`.  (`reorder_children` itself
can create a cycle, which is why the claim's 'any sequence of category
operations' clause had to be restricted.) -/
theorem move_category_cycle_guard (index : Index) (cat_id p : String)
    (hacy : AcyclicCO (index.categoryChildOrder.getD []))
    (hbad : p = cat_id ∨
      Relation.TransGen (coStep (index.categoryChildOrder.getD [])) cat_id p) :
    ((∃ fuel e, move_category fuel cat_id (some p) index =
        some (Except.error e, index)) ∧
     (∀ fuel r st, move_category fuel cat_id (some p) index = some (r, st) →
        (∃ e, r = Except.error e) ∧ st = index)) ∧
    (∀ i1 i2, Relation.ReflTransGen CatStep i1 i2 →
      AcyclicCO (i1.categoryChildOrder.getD []) →
      AcyclicCO (i2.categoryChildOrder.getD [])) := by
  refine ⟨⟨move_category_bad_parent_raises hacy hbad, ?_⟩, ?_⟩
  · intro fuel r st h
    exact move_category_bad_parent_errors hbad h
  · intro i1 i2 hseq
    induction hseq with
    | refl => exact id
    | tail hstep hlast ih =>
      intro h1
      exact catStep_preserves_acyclic hlast (ih h1)

def aId : String := "aaaaaaaa-aaaa-aaaa-aaaa-aaaaaaaaaaaa"

def bId : String := "bbbbbbbb-bbbb-bbbb-bbbb-bbbbbbbbbbbb"

/-- An index with a single top-level category `aId` and an (acyclic) empty
`categoryChildOrder` dictionary. -/
def cycleSeedIndex : Index :=
  ⟨some [], some none, some [], some [⟨aId, "A", "A", none⟩], some [],
    some [aId], some []⟩

/-- C6 counterexample: `reorder_children` stores the requested child list
wholesale, so asking it to make category `aId` its own child succeeds and
turns an acyclic `categoryChildOrder` into one with a self-loop.  The
claim's 'no sequence of category operations can make a category its own
ancestor' is therefore false: one `reorder_children` call suffices. -/
theorem reorder_children_creates_cycle :
    AcyclicCO (cycleSeedIndex.categoryChildOrder.getD []) ∧
    ∃ index2, reorder_children aId [aId] cycleSeedIndex = Except.ok index2 ∧
      coStep (index2.categoryChildOrder.getD []) aId aId ∧
      ¬ AcyclicCO (index2.categoryChildOrder.getD []) := by
  refine ⟨acyclic_nil, _, rfl, ?_, ?_⟩
  · show aId ∈ coGet [(aId, [aId])] aId
    simp [coGet, dictGet]
  · intro hacy
    have hself : coStep [(aId, [aId])] aId aId := by
      simp [coStep, coGet, dictGet]
    exact @no_acc_of_self (fun c p => coStep [(aId, [aId])] p c) aId hself
      (hacy aId)

/-- A child-order dictionary in which `bId` is the only child of `aId`. -/
def witCO : List (String × List String) := [(aId, [bId])]

lemma witCO_coGet (x : String) :
    coGet witCO x = if x = aId then [bId] else [] := by
  by_cases hx : x = aId
  · subst hx
    simp [coGet, dictGet, witCO]
  · simp [coGet, dictGet, witCO, hx, Ne.symm hx]

lemma witCO_acyclic : AcyclicCO witCO := by
  have hleaf : ∀ x, ¬ x = aId → Acc (fun c p => coStep witCO p c) x := by
    intro x hx
    refine Acc.intro x (fun c hc => absurd hc ?_)
    simp [coStep, witCO_coGet, hx]
  have hb : Acc (fun c p => coStep witCO p c) bId := by
    refine hleaf bId ?_
    decide
  have ha : Acc (fun c p => coStep witCO p c) aId := by
    refine Acc.intro aId (fun c hc => ?_)
    have hcb : c = bId := by
      simpa [coStep, witCO_coGet] using hc
    rw [hcb]
    exact hb
  intro x
  by_cases hx : x = aId
  · rw [hx]
    exact ha
  · exact hleaf x hx

/-- An index whose child-order dictionary is `witCO`. -/
def witIndex : Index :=
  ⟨some [], some none, some [], some [⟨aId, "A", "A", none⟩,
    ⟨bId, "B", "B", some aId⟩], some [], some [aId], some witCO⟩

theorem move_category_cycle_guard_witness :
    AcyclicCO (witIndex.categoryChildOrder.getD []) ∧
    (((∃ fuel e, move_category fuel aId (some bId) witIndex =
        some (Except.error e, witIndex)) ∧
      (∀ fuel r st, move_category fuel aId (some bId) witIndex =
          some (r, st) →
        (∃ e, r = Except.error e) ∧ st = witIndex)) ∧
     (∀ i1 i2, Relation.ReflTransGen CatStep i1 i2 →
       AcyclicCO (i1.categoryChildOrder.getD []) →
       AcyclicCO (i2.categoryChildOrder.getD []))) := by
  have hacy : AcyclicCO (witIndex.categoryChildOrder.getD []) := witCO_acyclic
  refine ⟨hacy, move_category_cycle_guard witIndex aId bId hacy (Or.inr ?_)⟩
  refine Relation.TransGen.single ?_
  show bId ∈ coGet witCO aId
  rw [witCO_coGet]
  simp
